import Mathlib

/-!
Shallow embedding of the lexical scanner in `parser/lexer.go` of the
`mitchellh/hcl` repository, together with proofs of the specified
properties of `Scan`, `TokenLiteral`, `Pos` and the cursor `next`.

The development contains two embeddings of the same code:
* `Scanner`/`Scan`/... model the input at the decoded-character level
  (a `List Char`), which corresponds to a valid UTF-8 byte stream;
  `srcBytes` is the UTF-8 encoding of that character list, exactly the
  byte slice the Go scanner slices its literals out of.
* `ScannerB`/`ScanB`/... model the input as a raw byte list (`List Nat`),
  with `decodeRuneB` embedding `unicode/utf8.DecodeRune` as used by
  `bytes.Buffer.ReadRune`, including the erroneous-encoding case in which
  one byte is consumed and U+FFFD is returned with size 1.  This model
  represents every input byte sequence, valid UTF-8 or not.

Go `int` fields are modelled as `Int`.  A Go slice expression that would
panic is modelled as `Option.none`.
-/

namespace HCL

/-- UTF-8 encoding of one character, as the list of its bytes (each `< 256`).
This is the encoding `bytes.Buffer.ReadRune` decodes and whose byte count it
reports as the rune size. -/
def utf8EncodeChar (c : Char) : List Nat :=
  let v := c.toNat
  if v < 0x80 then [v]
  else if v < 0x800 then [0xC0 + v / 64, 0x80 + v % 64]
  else if v < 0x10000 then [0xE0 + v / 4096, 0x80 + v / 64 % 64, 0x80 + v % 64]
  else [0xF0 + v / 262144, 0x80 + v / 4096 % 64, 0x80 + v / 64 % 64, 0x80 + v % 64]

/-- Encoded byte width of a character: the `size` returned by `ReadRune`. -/
def charWidth (c : Char) : Nat :=
  (utf8EncodeChar c).length

/-- Total byte length of the UTF-8 encoding of a character list. -/
def byteLen (l : List Char) : Nat :=
  (l.map charWidth).sum

/-- Modelled from the spec: Go's `unicode.IsLetter` on code points `>= 0x80`
("any Unicode letter outside the ASCII range").  The Go unicode tables are
not part of this repository; we model them exactly on the Latin-1
supplement and the Latin extended / IPA / spacing-modifier blocks
(code points up to U+02C1), and conservatively return `false` above that.
Only code points `>= 0x80` ever reach this predicate. -/
def unicodeIsLetter (c : Char) : Bool :=
  c.toNat = 0xAA || c.toNat = 0xB5 || c.toNat = 0xBA ||
  (0xC0 ≤ c.toNat && c.toNat ≤ 0xD6) ||
  (0xD8 ≤ c.toNat && c.toNat ≤ 0xF6) ||
  (0xF8 ≤ c.toNat && c.toNat ≤ 0x2C1)

/-- Modelled from the spec: Go's `unicode.IsDigit` on code points `>= 0x80`
("any Unicode digit outside ASCII range", category Nd).  The Go unicode
tables are not part of this repository; we model the Arabic-Indic digit
block U+0660..U+0669 and conservatively return `false` elsewhere.  Only
code points `>= 0x80` ever reach this predicate. -/
def unicodeIsDigit (c : Char) : Bool :=
  0x660 ≤ c.toNat && c.toNat ≤ 0x669

/-- `isSpace` reports whether r is a space character. -/
def isSpace (r : Char) : Bool :=
  r = ' ' || r = '\t'

/-- `isEndOfLine` reports whether r is an end-of-line character. -/
def isEndOfLine (r : Char) : Bool :=
  r = '\r' || r = '\n'

/-- `isLetter` from the source:
`'a' <= ch && ch <= 'z' || 'A' <= ch && ch <= 'Z' || ch == '_' || ch >= 0x80 && unicode.IsLetter(ch)`. -/
def isLetter (ch : Char) : Bool :=
  ('a' ≤ ch && ch ≤ 'z') || ('A' ≤ ch && ch ≤ 'Z') || ch = '_' ||
    (0x80 ≤ ch.toNat && unicodeIsLetter ch)

/-- `isDigit` from the source:
`'0' <= ch && ch <= '9' || ch >= 0x80 && unicode.IsDigit(ch)`. -/
def isDigit (ch : Char) : Bool :=
  ('0' ≤ ch && ch ≤ '9') || (0x80 ≤ ch.toNat && unicodeIsDigit ch)

/-- `isWhitespace` returns true if the rune is a space, tab, newline or
carriage return. -/
def isWhitespace (ch : Char) : Bool :=
  ch = ' ' || ch = '\t' || ch = '\n' || ch = '\r'

/-- Modelled from the spec: the `Position` struct
`{ offset: byte offset from start, line counter, column: byte offset within
current line }`; its Go declaration is not under `src/`.  The fields are Go
`int`s, zero-valued at construction. -/
structure Position where
  Offset : Int
  Line : Int
  Column : Int
deriving Repr, DecidableEq

/-- Modelled from the spec: the `Token` tag type ("a closed, extensible set
of lexical categories (at minimum: `IDENT`, `EOF`)"); its Go declaration is
not under `src/`.  Following the spec's requirement that an unclassified
lexeme be a distinguishable condition (never a silent `EOF`), the Go zero
value of the type is modelled as a dedicated `ILLEGAL` tag distinct from
`EOF` and `IDENT`. -/
inductive Token where
  | ILLEGAL
  | IDENT
  | EOF
deriving Repr, DecidableEq

/-- `eof` represents a marker rune for the end of the reader (`rune(0)`). -/
def eof : Char := Char.ofNat 0

/-- The `Scanner` struct.  `rest` is the unread suffix of the decoded input
(the read cursor of the `src *bytes.Buffer`); `srcBytes` is the full input
byte slice.  The remaining fields are exactly the Go struct's fields, with
`tokBuf` the byte content of the `bytes.Buffer` token text buffer. -/
structure Scanner where
  rest : List Char
  srcBytes : List Nat
  ch : Char
  lastCharLen : Int
  pos : Position
  tokBuf : List Nat
  tokPos : Int
  tokEnd : Int
deriving Repr, DecidableEq

/-- `NewLexer` returns a new instance of Lexer: the source is fully
consumed into `srcBytes`, and every other field has its Go zero value. -/
def NewLexer (input : List Char) : Scanner :=
  { rest := input
    srcBytes := (input.map utf8EncodeChar).flatten
    ch := Char.ofNat 0
    lastCharLen := 0
    pos := { Offset := 0, Line := 0, Column := 0 }
    tokBuf := []
    tokPos := 0
    tokEnd := 0 }

/-- `next` reads the next rune from the buffered reader.  Returns `rune(0)`
if an error occurs (`io.EOF` when the buffer is exhausted): in that case
`s.ch` has been overwritten with `0` by the multiple assignment, and
`lastCharLen` and `pos` are left untouched.  On success it records the
rune's byte size, advances `Offset` and `Column` by that size, and on a
newline increments `Line` and resets `Column` to 0.  This is
`bytes.Buffer.ReadRune` restricted to the valid-UTF-8 input
representation, where the size of each read is the rune's encoded width;
`nextB` below is the same cursor over raw bytes, covering invalid
encodings as well. -/
def next (s : Scanner) : Scanner × Char :=
  match s.rest with
  | [] => ({ s with ch := Char.ofNat 0 }, Char.ofNat 0)
  | c :: r =>
    let size : Int := (charWidth c : Int)
    let pos1 : Position :=
      { Offset := s.pos.Offset + size, Line := s.pos.Line, Column := s.pos.Column + size }
    let pos2 : Position :=
      if c = '\n' then { Offset := pos1.Offset, Line := pos1.Line + 1, Column := 0 } else pos1
    ({ s with rest := r, ch := c, lastCharLen := size, pos := pos2 }, c)

/-- The whitespace-skipping loop at the top of `Scan`
(`for isWhitespace(ch) { ch = s.next() }`), written with a fuel argument so
that it is structurally recursive.  `s.rest.length + 1` fuel always
suffices: every iteration either consumes one character of `rest` or hits
end of input, where `next` returns the sentinel, which is not whitespace. -/
def skipWhitespaceAux : Nat → Scanner → Char → Scanner × Char
  | 0, s, c => (s, c)
  | fuel + 1, s, c =>
    if isWhitespace c then
      let p := next s
      skipWhitespaceAux fuel p.1 p.2
    else (s, c)

/-- The whitespace-skipping loop of `Scan` with its adequate fuel. -/
def skipWhitespace (s : Scanner) (c : Char) : Scanner × Char :=
  skipWhitespaceAux (s.rest.length + 1) s c

/-- The loop body of `scanIdentifier`
(`for isLetter(s.ch) || isDigit(s.ch) { s.next() }`), with fuel; as for
`skipWhitespaceAux`, `s.rest.length + 1` fuel always suffices. -/
def scanIdentifierAux : Nat → Scanner → Scanner
  | 0, s => s
  | fuel + 1, s =>
    if isLetter s.ch || isDigit s.ch then scanIdentifierAux fuel (next s).1 else s

/-- `scanIdentifier` consumes letter-or-digit characters starting from the
current `s.ch`. -/
def scanIdentifier (s : Scanner) : Scanner :=
  scanIdentifierAux (s.rest.length + 1) s

/-- A Go slice expression `l[i:j]`: defined exactly when
`0 <= i <= j <= len(l)`, and `none` (a runtime panic) otherwise. -/
def goSlice (l : List Nat) (i j : Int) : Option (List Nat) :=
  if 0 ≤ i ∧ i ≤ j ∧ j ≤ (l.length : Int) then some ((l.take j.toNat).drop i.toNat)
  else none

/-- `TokenLiteral` returns the literal string corresponding to the most
recently scanned token: if `tokPos < 0` there is no token text; otherwise
it appends `srcBytes[tokPos:tokEnd]` to `tokBuf`, sets `tokPos = tokEnd`
(the source comments this mutation with "ensure idempotency"), and returns
the buffer contents.  `none` models the panic of an out-of-range slice. -/
def TokenLiteral (s : Scanner) : Option (Scanner × List Nat) :=
  if s.tokPos < 0 then some (s, [])
  else
    match goSlice s.srcBytes s.tokPos s.tokEnd with
    | none => none
    | some piece =>
      some ({ s with tokBuf := s.tokBuf ++ piece, tokPos := s.tokEnd }, s.tokBuf ++ piece)

/-- The part of `Scan`'s body that follows the whitespace loop, applied to
the scanner state `s2` and classifying character `ch` (the first
non-whitespace character of this call): reset `tokBuf`, record `tokPos`,
run `scanIdentifier` when `ch` is a letter, classify the token tag, and
record `tokEnd`.  The `isDigit(ch)` branch of the source has an empty body
("scan for number") and is therefore not represented by any state change;
the `switch` overwrites the tag with `EOF` when `ch` is the sentinel. -/
def scanAfterSkip (s2 : Scanner) (ch : Char) : Scanner × Char × Token :=
  let s3 := { s2 with tokBuf := [], tokPos := s2.pos.Offset - s2.lastCharLen }
  let s4 := if isLetter ch then scanIdentifier s3 else s3
  let tok0 := if isLetter ch then Token.IDENT else Token.ILLEGAL
  let tok := if ch = eof then Token.EOF else tok0
  let s5 := { s4 with tokEnd := s4.pos.Offset - s4.lastCharLen }
  (s5, ch, tok)

/-- The body of `Scan` up to (and including) the assignment of `tokEnd`:
advance once, skip whitespace, then run the classification tail. -/
def scanCore (s : Scanner) : Scanner × Char × Token :=
  let p0 := next s
  let p1 := skipWhitespace p0.1 p0.2
  scanAfterSkip p1.1 p1.2

/-- `Scan` scans the next token and returns the token and its literal
string (`return tok, s.TokenLiteral()`). -/
def Scan (s : Scanner) : Option (Scanner × Token × List Nat) :=
  let r := scanCore s
  match TokenLiteral r.1 with
  | none => none
  | some (s6, lit) => some (s6, r.2.2, lit)

/-- `Pos` returns the position of the character immediately after the
character or token returned by the last call to Next or Scan — but the
source body is `return Position{}`, the zero value. -/
def Pos (_ : Scanner) : Position :=
  { Offset := 0, Line := 0, Column := 0 }

/-- The byte offset at which the most recently decoded character starts:
the quantity `s.pos.Offset - s.lastCharLen` that `Scan` assigns to both
`tokPos` and `tokEnd`. -/
def lastStart (s : Scanner) : Int :=
  s.pos.Offset - s.lastCharLen

/-- Cursor invariant maintained by `next`: the last character width is
non-negative and at most the offset, and the offset plus the byte length
of the unread suffix is the total byte length of the input. -/
def CInv (s : Scanner) : Prop :=
  0 ≤ s.lastCharLen ∧ s.lastCharLen ≤ s.pos.Offset ∧
    s.pos.Offset + (byteLen s.rest : Int) = (s.srcBytes.length : Int)

/-- Full invariant of scanner states visible to a caller: the cursor
invariant, plus the fact that the token span has been collapsed by the
trailing `TokenLiteral` call of `Scan` (`tokPos = tokEnd`) and that
`tokEnd` is the start offset of the most recently decoded character. -/
def Inv (s : Scanner) : Prop :=
  CInv s ∧ s.tokPos = s.tokEnd ∧ s.tokEnd = lastStart s

/-- States reachable through the public interface: a freshly constructed
lexer, followed by any sequence of successful `Scan` and `TokenLiteral`
calls (`Pos` does not mutate the scanner). -/
inductive Reachable : Scanner → Prop where
  | init (input : List Char) : Reachable (NewLexer input)
  | scan {s s' : Scanner} {t : Token} {lit : List Nat} :
      Reachable s → Scan s = some (s', t, lit) → Reachable s'
  | tokenLiteral {s s' : Scanner} {lit : List Nat} :
      Reachable s → TokenLiteral s = some (s', lit) → Reachable s'

/-! ### The byte-level model

The same scanner, with the read cursor over the raw input bytes.  This is
the faithful model of `bytes.Buffer.ReadRune` for arbitrary input byte
sequences: a valid UTF-8 encoding is decoded with its actual size, an
erroneous encoding consumes one byte and yields U+FFFD with size 1. -/

/-- `unicode/utf8.DecodeRune` as called by `bytes.Buffer.ReadRune` (whose
ASCII fast path agrees with the decoder's first branch): given the unread
bytes, return the decoded rune and the number of bytes it consumes.
First bytes `0x80..0xC1` and `0xF5` upwards are invalid; 2-, 3- and
4-byte sequences check the length, the first-byte-dependent accept range
of the second byte (excluding overlong encodings, surrogates and values
above U+10FFFF) and the `0x80..0xBF` continuation range of the rest; any
failure consumes one byte and returns U+FFFD (`RuneError`) with size 1.
On the empty input it returns size 0, matching `DecodeRune(nil)`; the
caller `nextB` never reaches that case because, like `ReadRune`, it
reports `io.EOF` on an empty buffer first. -/
def decodeRuneB : List Nat → Char × Nat
  | [] => (Char.ofNat 0xFFFD, 0)
  | c0 :: rest =>
    if c0 < 0x80 then (Char.ofNat c0, 1)
    else if c0 < 0xC2 then (Char.ofNat 0xFFFD, 1)
    else if c0 < 0xE0 then
      match rest with
      | b1 :: _ =>
        if 0x80 ≤ b1 ∧ b1 ≤ 0xBF then (Char.ofNat ((c0 % 32) * 64 + b1 % 64), 2)
        else (Char.ofNat 0xFFFD, 1)
      | [] => (Char.ofNat 0xFFFD, 1)
    else if c0 < 0xF0 then
      match rest with
      | b1 :: b2 :: _ =>
        if (if c0 = 0xE0 then 0xA0 ≤ b1 ∧ b1 ≤ 0xBF
            else if c0 = 0xED then 0x80 ≤ b1 ∧ b1 ≤ 0x9F
            else 0x80 ≤ b1 ∧ b1 ≤ 0xBF) ∧ (0x80 ≤ b2 ∧ b2 ≤ 0xBF) then
          (Char.ofNat ((c0 % 16) * 4096 + (b1 % 64) * 64 + b2 % 64), 3)
        else (Char.ofNat 0xFFFD, 1)
      | _ => (Char.ofNat 0xFFFD, 1)
    else if c0 < 0xF5 then
      match rest with
      | b1 :: b2 :: b3 :: _ =>
        if (if c0 = 0xF0 then 0x90 ≤ b1 ∧ b1 ≤ 0xBF
            else if c0 = 0xF4 then 0x80 ≤ b1 ∧ b1 ≤ 0x8F
            else 0x80 ≤ b1 ∧ b1 ≤ 0xBF) ∧ (0x80 ≤ b2 ∧ b2 ≤ 0xBF) ∧
            (0x80 ≤ b3 ∧ b3 ≤ 0xBF) then
          (Char.ofNat ((c0 % 8) * 262144 + (b1 % 64) * 4096 + (b2 % 64) * 64 + b3 % 64), 4)
        else (Char.ofNat 0xFFFD, 1)
      | _ => (Char.ofNat 0xFFFD, 1)
    else (Char.ofNat 0xFFFD, 1)

/-- The `Scanner` struct over raw bytes: identical to `Scanner`, except
that the unread suffix of the `bytes.Buffer` is kept as bytes, so that
inputs that are not valid UTF-8 are representable. -/
structure ScannerB where
  rest : List Nat
  srcBytes : List Nat
  ch : Char
  lastCharLen : Int
  pos : Position
  tokBuf : List Nat
  tokPos : Int
  tokEnd : Int
deriving Repr, DecidableEq

/-- `NewLexer` over raw input bytes: `srcBytes` is the input itself, every
other field has its Go zero value. -/
def NewLexerB (input : List Nat) : ScannerB :=
  { rest := input
    srcBytes := input
    ch := Char.ofNat 0
    lastCharLen := 0
    pos := { Offset := 0, Line := 0, Column := 0 }
    tokBuf := []
    tokPos := 0
    tokEnd := 0 }

/-- `next` over raw bytes: on an empty buffer, `ReadRune` reports `io.EOF`,
so `ch` is overwritten with the sentinel and nothing else changes;
otherwise the rune and its consumed size come from `decodeRuneB`, and the
position bookkeeping is exactly that of `next`. -/
def nextB (s : ScannerB) : ScannerB × Char :=
  match s.rest with
  | [] => ({ s with ch := Char.ofNat 0 }, Char.ofNat 0)
  | b :: bs =>
    let c := (decodeRuneB (b :: bs)).1
    let size : Int := ((decodeRuneB (b :: bs)).2 : Int)
    let pos1 : Position :=
      { Offset := s.pos.Offset + size, Line := s.pos.Line, Column := s.pos.Column + size }
    let pos2 : Position :=
      if c = '\n' then { Offset := pos1.Offset, Line := pos1.Line + 1, Column := 0 } else pos1
    ({ s with
        rest := (b :: bs).drop (decodeRuneB (b :: bs)).2
        ch := c
        lastCharLen := size
        pos := pos2 }, c)

/-- The whitespace loop of `Scan` over the byte cursor, with fuel;
`s.rest.length + 1` always suffices because every iteration either
consumes at least one byte or hits end of input, where `nextB` returns
the non-whitespace sentinel (`skipWhitespaceB_eq` below shows the fuelled
function satisfies the loop's defining equation). -/
def skipWhitespaceAuxB : Nat → ScannerB → Char → ScannerB × Char
  | 0, s, c => (s, c)
  | fuel + 1, s, c =>
    if isWhitespace c then
      let p := nextB s
      skipWhitespaceAuxB fuel p.1 p.2
    else (s, c)

/-- The whitespace loop of `Scan` over bytes, with its adequate fuel. -/
def skipWhitespaceB (s : ScannerB) (c : Char) : ScannerB × Char :=
  skipWhitespaceAuxB (s.rest.length + 1) s c

/-- The `scanIdentifier` loop over the byte cursor, with fuel; as for
`skipWhitespaceAuxB`, `s.rest.length + 1` fuel always suffices. -/
def scanIdentifierAuxB : Nat → ScannerB → ScannerB
  | 0, s => s
  | fuel + 1, s =>
    if isLetter s.ch || isDigit s.ch then scanIdentifierAuxB fuel (nextB s).1 else s

/-- `scanIdentifier` over bytes. -/
def scanIdentifierB (s : ScannerB) : ScannerB :=
  scanIdentifierAuxB (s.rest.length + 1) s

/-- `TokenLiteral` over the byte-level scanner: the same code as
`TokenLiteral`. -/
def TokenLiteralB (s : ScannerB) : Option (ScannerB × List Nat) :=
  if s.tokPos < 0 then some (s, [])
  else
    match goSlice s.srcBytes s.tokPos s.tokEnd with
    | none => none
    | some piece =>
      some ({ s with tokBuf := s.tokBuf ++ piece, tokPos := s.tokEnd }, s.tokBuf ++ piece)

/-- The classification tail of `Scan` over the byte-level scanner: the
same code as `scanAfterSkip`. -/
def scanAfterSkipB (s2 : ScannerB) (ch : Char) : ScannerB × Char × Token :=
  let s3 := { s2 with tokBuf := [], tokPos := s2.pos.Offset - s2.lastCharLen }
  let s4 := if isLetter ch then scanIdentifierB s3 else s3
  let tok0 := if isLetter ch then Token.IDENT else Token.ILLEGAL
  let tok := if ch = eof then Token.EOF else tok0
  let s5 := { s4 with tokEnd := s4.pos.Offset - s4.lastCharLen }
  (s5, ch, tok)

/-- The body of `Scan` up to the assignment of `tokEnd`, over bytes. -/
def scanCoreB (s : ScannerB) : ScannerB × Char × Token :=
  let p0 := nextB s
  let p1 := skipWhitespaceB p0.1 p0.2
  scanAfterSkipB p1.1 p1.2

/-- `Scan` over the byte-level scanner. -/
def ScanB (s : ScannerB) : Option (ScannerB × Token × List Nat) :=
  let r := scanCoreB s
  match TokenLiteralB r.1 with
  | none => none
  | some (s6, lit) => some (s6, r.2.2, lit)

/-- `pos.Offset - lastCharLen` over the byte-level scanner. -/
def lastStartB (s : ScannerB) : Int :=
  s.pos.Offset - s.lastCharLen

/-- Cursor invariant of the byte-level model: the last size is
non-negative and at most the offset, and the offset plus the number of
unread bytes is the total input length. -/
def CInvB (s : ScannerB) : Prop :=
  0 ≤ s.lastCharLen ∧ s.lastCharLen ≤ s.pos.Offset ∧
    s.pos.Offset + (s.rest.length : Int) = (s.srcBytes.length : Int)

/-- Full invariant of caller-visible byte-level states. -/
def InvB (s : ScannerB) : Prop :=
  CInvB s ∧ s.tokPos = s.tokEnd ∧ s.tokEnd = lastStartB s

/-- Byte-level states reachable through the public interface from a lexer
built over an arbitrary input byte sequence. -/
inductive ReachableB : ScannerB → Prop where
  | init (input : List Nat) : ReachableB (NewLexerB input)
  | scan {s s' : ScannerB} {t : Token} {lit : List Nat} :
      ReachableB s → ScanB s = some (s', t, lit) → ReachableB s'
  | tokenLiteral {s s' : ScannerB} {lit : List Nat} :
      ReachableB s → TokenLiteralB s = some (s', lit) → ReachableB s'

/-! ### Basic lemmas about `next` -/

theorem byteLen_cons (c : Char) (r : List Char) :
    byteLen (c :: r) = charWidth c + byteLen r := by
  simp [byteLen]

theorem next_rest_nil {s : Scanner} (h : s.rest = []) :
    next s = ({ s with ch := Char.ofNat 0 }, Char.ofNat 0) := by
  simp [next, h]

theorem next_rest_cons {s : Scanner} {c : Char} {r : List Char} (h : s.rest = c :: r) :
    next s =
      ({ s with
          rest := r
          ch := c
          lastCharLen := (charWidth c : Int)
          pos :=
            if c = '\n' then
              { Offset := s.pos.Offset + (charWidth c : Int), Line := s.pos.Line + 1,
                Column := 0 }
            else
              { Offset := s.pos.Offset + (charWidth c : Int), Line := s.pos.Line,
                Column := s.pos.Column + (charWidth c : Int) } }, c) := by
  by_cases hc : c = '\n' <;> simp [next, h, hc]

theorem next_srcBytes (s : Scanner) : (next s).1.srcBytes = s.srcBytes := by
  cases h : s.rest with
  | nil => rw [next_rest_nil h]
  | cons c r => rw [next_rest_cons h]

theorem next_tokBuf (s : Scanner) : (next s).1.tokBuf = s.tokBuf := by
  cases h : s.rest with
  | nil => rw [next_rest_nil h]
  | cons c r => rw [next_rest_cons h]

theorem next_tokPos (s : Scanner) : (next s).1.tokPos = s.tokPos := by
  cases h : s.rest with
  | nil => rw [next_rest_nil h]
  | cons c r => rw [next_rest_cons h]

theorem next_tokEnd (s : Scanner) : (next s).1.tokEnd = s.tokEnd := by
  cases h : s.rest with
  | nil => rw [next_rest_nil h]
  | cons c r => rw [next_rest_cons h]

theorem next_ch (s : Scanner) : (next s).1.ch = (next s).2 := by
  cases h : s.rest with
  | nil => rw [next_rest_nil h]
  | cons c r => rw [next_rest_cons h]

theorem next_pos_offset_cons {s : Scanner} {c : Char} {r : List Char} (h : s.rest = c :: r) :
    (next s).1.pos.Offset = s.pos.Offset + (charWidth c : Int) := by
  rw [next_rest_cons h]
  by_cases hc : c = '\n' <;> simp [hc]

theorem next_offset_mono (s : Scanner) : s.pos.Offset ≤ (next s).1.pos.Offset := by
  cases h : s.rest with
  | nil => rw [next_rest_nil h]
  | cons c r =>
    rw [next_pos_offset_cons h]
    have : (0 : Int) ≤ (charWidth c : Int) := Int.ofNat_nonneg _
    omega

theorem next_lastCharLen_cons {s : Scanner} {c : Char} {r : List Char} (h : s.rest = c :: r) :
    (next s).1.lastCharLen = (charWidth c : Int) := by
  rw [next_rest_cons h]

theorem next_rest_tail {s : Scanner} {c : Char} {r : List Char} (h : s.rest = c :: r) :
    (next s).1.rest = r := by
  rw [next_rest_cons h]

theorem next_lastStart_mono (s : Scanner) (h0 : 0 ≤ s.lastCharLen) :
    lastStart s ≤ lastStart (next s).1 := by
  cases h : s.rest with
  | nil => rw [next_rest_nil h]; simp [lastStart]
  | cons c r =>
    have ho := next_pos_offset_cons h
    have hl := next_lastCharLen_cons h
    unfold lastStart
    rw [ho, hl]
    omega

theorem next_cinv {s : Scanner} (h : CInv s) : CInv (next s).1 := by
  obtain ⟨h1, h2, h3⟩ := h
  cases hr : s.rest with
  | nil =>
    rw [next_rest_nil hr]
    exact ⟨h1, h2, by simpa using h3⟩
  | cons c r =>
    have ho := next_pos_offset_cons hr
    have hl := next_lastCharLen_cons hr
    have hrr := next_rest_tail hr
    have hb : (next s).1.srcBytes = s.srcBytes := next_srcBytes s
    refine ⟨by rw [hl]; exact Int.ofNat_nonneg _, ?_, ?_⟩
    · rw [hl, ho]; omega
    · rw [ho, hrr, hb]
      rw [hr, byteLen_cons] at h3
      push_cast at h3 ⊢
      omega

theorem cinv_lastStart_nonneg {s : Scanner} (h : CInv s) : 0 ≤ lastStart s := by
  obtain ⟨h1, h2, h3⟩ := h
  unfold lastStart
  omega

theorem cinv_lastStart_le_offset {s : Scanner} (h : CInv s) : lastStart s ≤ s.pos.Offset := by
  obtain ⟨h1, h2, h3⟩ := h
  unfold lastStart
  omega

theorem cinv_offset_le_len {s : Scanner} (h : CInv s) :
    s.pos.Offset ≤ (s.srcBytes.length : Int) := by
  obtain ⟨h1, h2, h3⟩ := h
  have : (0 : Int) ≤ (byteLen s.rest : Int) := Int.ofNat_nonneg _
  omega

/-! ### Loop-unfolding equations for the two scanning loops -/

theorem skipWhitespaceAux_succ (fuel : Nat) (s : Scanner) (c : Char) :
    skipWhitespaceAux (fuel + 1) s c =
      if isWhitespace c then skipWhitespaceAux fuel (next s).1 (next s).2 else (s, c) :=
  rfl

theorem skipWhitespace_eq (s : Scanner) (c : Char) :
    skipWhitespace s c =
      if isWhitespace c then skipWhitespace (next s).1 (next s).2 else (s, c) := by
  by_cases hc : isWhitespace c = true
  · rw [if_pos hc]
    cases hr : s.rest with
    | nil =>
      have hn := next_rest_nil hr
      have hr2 : (next s).1.rest = [] := by rw [hn]; exact hr
      have hc2 : (next s).2 = Char.ofNat 0 := by rw [hn]
      unfold skipWhitespace
      rw [hr, hr2]
      rw [List.length_nil, skipWhitespaceAux_succ, if_pos hc, skipWhitespaceAux_succ]
      rw [hc2]
      have hws0 : isWhitespace (Char.ofNat 0) = false := by decide
      simp [hws0, skipWhitespaceAux]
    | cons x xs =>
      have hr2 : (next s).1.rest = xs := next_rest_tail hr
      unfold skipWhitespace
      rw [hr, hr2, List.length_cons, skipWhitespaceAux_succ, if_pos hc]
  · rw [if_neg hc]
    unfold skipWhitespace
    rw [skipWhitespaceAux_succ, if_neg hc]

theorem scanIdentifierAux_succ (fuel : Nat) (s : Scanner) :
    scanIdentifierAux (fuel + 1) s =
      if isLetter s.ch || isDigit s.ch then scanIdentifierAux fuel (next s).1 else s :=
  rfl

theorem scanIdentifier_eq (s : Scanner) :
    scanIdentifier s =
      if isLetter s.ch || isDigit s.ch then scanIdentifier (next s).1 else s := by
  by_cases hc : (isLetter s.ch || isDigit s.ch) = true
  · rw [if_pos hc]
    cases hr : s.rest with
    | nil =>
      have hn := next_rest_nil hr
      have hr2 : (next s).1.rest = [] := by rw [hn]; exact hr
      have hch : (next s).1.ch = Char.ofNat 0 := by rw [hn]
      unfold scanIdentifier
      rw [hr, hr2]
      rw [List.length_nil, scanIdentifierAux_succ, if_pos hc, scanIdentifierAux_succ]
      rw [hch]
      have h0 : (isLetter (Char.ofNat 0) || isDigit (Char.ofNat 0)) = false := by decide
      simp [h0, scanIdentifierAux]
    | cons x xs =>
      have hr2 : (next s).1.rest = xs := next_rest_tail hr
      unfold scanIdentifier
      rw [hr, hr2, List.length_cons, scanIdentifierAux_succ, if_pos hc]
  · rw [if_neg hc]
    unfold scanIdentifier
    rw [scanIdentifierAux_succ, if_neg hc]

/-! ### Behaviour of the two loops -/

theorem skipWhitespace_spec :
    ∀ (r : List Char) (s : Scanner) (c : Char), s.rest = r →
      (skipWhitespace s c).1.srcBytes = s.srcBytes ∧
      (skipWhitespace s c).1.tokBuf = s.tokBuf ∧
      (skipWhitespace s c).1.tokPos = s.tokPos ∧
      (skipWhitespace s c).1.tokEnd = s.tokEnd ∧
      (s.ch = c → (skipWhitespace s c).1.ch = (skipWhitespace s c).2) ∧
      isWhitespace (skipWhitespace s c).2 = false ∧
      s.pos.Offset ≤ (skipWhitespace s c).1.pos.Offset ∧
      (CInv s → CInv (skipWhitespace s c).1 ∧ lastStart s ≤ lastStart (skipWhitespace s c).1) := by
  intro r
  induction r with
  | nil =>
    intro s c hr
    rw [skipWhitespace_eq]
    by_cases hc : isWhitespace c = true
    · rw [if_pos hc]
      have hn := next_rest_nil hr
      have hr2 : (next s).1.rest = [] := by rw [hn]; exact hr
      have hc2 : (next s).2 = Char.ofNat 0 := by rw [hn]
      rw [skipWhitespace_eq, hc2]
      have hws0 : isWhitespace (Char.ofNat 0) = false := by decide
      rw [if_neg (by simp [hws0])]
      refine ⟨next_srcBytes s, next_tokBuf s, next_tokPos s, next_tokEnd s, ?_, hws0, ?_, ?_⟩
      · intro _
        rw [next_ch s, hc2]
      · exact next_offset_mono s
      · intro hcinv
        refine ⟨next_cinv hcinv, next_lastStart_mono s hcinv.1⟩
    · rw [if_neg hc]
      refine ⟨rfl, rfl, rfl, rfl, fun h => h, ?_, le_refl _, fun hcinv => ⟨hcinv, le_refl _⟩⟩
      simpa using hc
  | cons x xs ih =>
    intro s c hr
    rw [skipWhitespace_eq]
    by_cases hc : isWhitespace c = true
    · rw [if_pos hc]
      have hr2 : (next s).1.rest = xs := next_rest_tail hr
      obtain ⟨i1, i2, i3, i4, i5, i6, i7, i8⟩ := ih (next s).1 (next s).2 hr2
      refine ⟨?_, ?_, ?_, ?_, ?_, i6, ?_, ?_⟩
      · rw [i1, next_srcBytes]
      · rw [i2, next_tokBuf]
      · rw [i3, next_tokPos]
      · rw [i4, next_tokEnd]
      · intro _
        exact i5 (next_ch s)
      · exact le_trans (next_offset_mono s) i7
      · intro hcinv
        obtain ⟨j1, j2⟩ := i8 (next_cinv hcinv)
        exact ⟨j1, le_trans (next_lastStart_mono s hcinv.1) j2⟩
    · rw [if_neg hc]
      refine ⟨rfl, rfl, rfl, rfl, fun h => h, ?_, le_refl _, fun hcinv => ⟨hcinv, le_refl _⟩⟩
      simpa using hc

theorem scanIdentifier_spec :
    ∀ (r : List Char) (s : Scanner), s.rest = r →
      (scanIdentifier s).srcBytes = s.srcBytes ∧
      (scanIdentifier s).tokBuf = s.tokBuf ∧
      (scanIdentifier s).tokPos = s.tokPos ∧
      (scanIdentifier s).tokEnd = s.tokEnd ∧
      s.pos.Offset ≤ (scanIdentifier s).pos.Offset ∧
      (CInv s → CInv (scanIdentifier s) ∧ lastStart s ≤ lastStart (scanIdentifier s)) := by
  intro r
  induction r with
  | nil =>
    intro s hr
    rw [scanIdentifier_eq]
    by_cases hc : (isLetter s.ch || isDigit s.ch) = true
    · rw [if_pos hc]
      have hn := next_rest_nil hr
      have hr2 : (next s).1.rest = [] := by rw [hn]; exact hr
      have hch : (next s).1.ch = Char.ofNat 0 := by rw [hn]
      rw [scanIdentifier_eq, hch]
      have h0 : (isLetter (Char.ofNat 0) || isDigit (Char.ofNat 0)) = false := by decide
      rw [if_neg (by simp [h0])]
      refine ⟨next_srcBytes s, next_tokBuf s, next_tokPos s, next_tokEnd s, ?_, ?_⟩
      · exact next_offset_mono s
      · intro hcinv
        exact ⟨next_cinv hcinv, next_lastStart_mono s hcinv.1⟩
    · rw [if_neg hc]
      exact ⟨rfl, rfl, rfl, rfl, le_refl _, fun hcinv => ⟨hcinv, le_refl _⟩⟩
  | cons x xs ih =>
    intro s hr
    rw [scanIdentifier_eq]
    by_cases hc : (isLetter s.ch || isDigit s.ch) = true
    · rw [if_pos hc]
      have hr2 : (next s).1.rest = xs := next_rest_tail hr
      obtain ⟨i1, i2, i3, i4, i5, i6⟩ := ih (next s).1 hr2
      refine ⟨?_, ?_, ?_, ?_, ?_, ?_⟩
      · rw [i1, next_srcBytes]
      · rw [i2, next_tokBuf]
      · rw [i3, next_tokPos]
      · rw [i4, next_tokEnd]
      · exact le_trans (next_offset_mono s) i5
      · intro hcinv
        obtain ⟨j1, j2⟩ := i6 (next_cinv hcinv)
        exact ⟨j1, le_trans (next_lastStart_mono s hcinv.1) j2⟩
    · rw [if_neg hc]
      exact ⟨rfl, rfl, rfl, rfl, le_refl _, fun hcinv => ⟨hcinv, le_refl _⟩⟩

/-! ### `TokenLiteral` -/

theorem tokenLiteral_some (s : Scanner) (h0 : 0 ≤ s.tokPos) (h1 : s.tokPos ≤ s.tokEnd)
    (h2 : s.tokEnd ≤ (s.srcBytes.length : Int)) :
    TokenLiteral s =
      some ({ s with
              tokBuf := s.tokBuf ++ (s.srcBytes.take s.tokEnd.toNat).drop s.tokPos.toNat
              tokPos := s.tokEnd },
            s.tokBuf ++ (s.srcBytes.take s.tokEnd.toNat).drop s.tokPos.toNat) := by
  unfold TokenLiteral
  rw [if_neg (by omega)]
  unfold goSlice
  rw [if_pos ⟨h0, h1, h2⟩]

theorem tokenLiteral_fixed (s : Scanner) (he : s.tokPos = s.tokEnd) (h0 : 0 ≤ s.tokPos)
    (h2 : s.tokEnd ≤ (s.srcBytes.length : Int)) :
    TokenLiteral s = some (s, s.tokBuf) := by
  rw [tokenLiteral_some s h0 (le_of_eq he) h2]
  have hdrop : (s.srcBytes.take s.tokEnd.toNat).drop s.tokPos.toNat = [] := by
    apply List.drop_eq_nil_of_le
    rw [he]
    exact List.length_take_le _ _
  rw [hdrop, List.append_nil]
  obtain ⟨f1, f2, f3, f4, f5, f6, f7, f8⟩ := s
  simp only at he
  subst he
  rfl

/-! ### The body of `Scan` -/

theorem scanAfterSkip_spec (s2 : Scanner) (ch : Char) (hc : CInv s2) :
    CInv (scanAfterSkip s2 ch).1 ∧
    (scanAfterSkip s2 ch).1.srcBytes = s2.srcBytes ∧
    (scanAfterSkip s2 ch).1.tokBuf = [] ∧
    (scanAfterSkip s2 ch).1.tokPos = lastStart s2 ∧
    (scanAfterSkip s2 ch).1.tokPos ≤ (scanAfterSkip s2 ch).1.tokEnd ∧
    (scanAfterSkip s2 ch).1.tokEnd = lastStart (scanAfterSkip s2 ch).1 ∧
    s2.pos.Offset ≤ (scanAfterSkip s2 ch).1.pos.Offset ∧
    (scanAfterSkip s2 ch).2.2 =
      (if ch = eof then Token.EOF
       else if isLetter ch then Token.IDENT else Token.ILLEGAL) := by
  set s3 : Scanner := { s2 with tokBuf := [], tokPos := s2.pos.Offset - s2.lastCharLen }
    with hs3
  by_cases hl : isLetter ch = true
  · have hcore : scanAfterSkip s2 ch =
        ({ scanIdentifier s3 with
            tokEnd := (scanIdentifier s3).pos.Offset - (scanIdentifier s3).lastCharLen },
          ch,
          if ch = eof then Token.EOF else Token.IDENT) := by
      rw [hs3]
      unfold scanAfterSkip
      rw [hl]
      simp
    obtain ⟨a1, a2, a3, a4, a5, a6⟩ := scanIdentifier_spec s3.rest s3 rfl
    have hc3 : CInv s3 := by rw [hs3]; exact hc
    obtain ⟨b1, b2⟩ := a6 hc3
    have h1 : CInv (scanAfterSkip s2 ch).1 := by rw [hcore]; exact b1
    have h2 : (scanAfterSkip s2 ch).1.srcBytes = s2.srcBytes := by
      rw [hcore]
      show (scanIdentifier s3).srcBytes = s2.srcBytes
      rw [a1, hs3]
    have h3 : (scanAfterSkip s2 ch).1.tokBuf = [] := by
      rw [hcore]
      show (scanIdentifier s3).tokBuf = []
      rw [a2, hs3]
    have h4 : (scanAfterSkip s2 ch).1.tokPos = lastStart s2 := by
      rw [hcore]
      show (scanIdentifier s3).tokPos = lastStart s2
      rw [a3, hs3]
      rfl
    have h5 : (scanAfterSkip s2 ch).1.tokPos ≤ (scanAfterSkip s2 ch).1.tokEnd := by
      rw [hcore]
      show (scanIdentifier s3).tokPos ≤
        (scanIdentifier s3).pos.Offset - (scanIdentifier s3).lastCharLen
      rw [a3]
      have hx : s3.tokPos = lastStart s3 := by rw [hs3]; rfl
      rw [hx]
      exact b2
    have h6 : (scanAfterSkip s2 ch).1.tokEnd = lastStart (scanAfterSkip s2 ch).1 := by
      rw [hcore]
      rfl
    have h7 : s2.pos.Offset ≤ (scanAfterSkip s2 ch).1.pos.Offset := by
      rw [hcore]
      show s2.pos.Offset ≤ (scanIdentifier s3).pos.Offset
      refine le_trans ?_ a5
      rw [hs3]
    have h8 : (scanAfterSkip s2 ch).2.2 =
        (if ch = eof then Token.EOF
         else if isLetter ch then Token.IDENT else Token.ILLEGAL) := by
      rw [hcore]
      simp [hl]
    exact ⟨h1, h2, h3, h4, h5, h6, h7, h8⟩
  · have hcore : scanAfterSkip s2 ch =
        ({ s3 with tokEnd := s3.pos.Offset - s3.lastCharLen },
          ch,
          if ch = eof then Token.EOF else Token.ILLEGAL) := by
      rw [hs3]
      unfold scanAfterSkip
      rw [Bool.of_not_eq_true hl]
      simp
    have h1 : CInv (scanAfterSkip s2 ch).1 := by rw [hcore]; exact hc
    have h5 : (scanAfterSkip s2 ch).1.tokPos ≤ (scanAfterSkip s2 ch).1.tokEnd := by
      rw [hcore]
    have h8 : (scanAfterSkip s2 ch).2.2 =
        (if ch = eof then Token.EOF
         else if isLetter ch then Token.IDENT else Token.ILLEGAL) := by
      rw [hcore]
      simp [hl]
    refine ⟨h1, ?_, ?_, ?_, h5, ?_, ?_, h8⟩
    · rw [hcore]
    · rw [hcore]
    · rw [hcore]
      show s3.tokPos = lastStart s2
      rw [hs3]
      rfl
    · rw [hcore]
      rfl
    · rw [hcore]

theorem scanCore_spec (s : Scanner) (hcinv : CInv s) :
    CInv (scanCore s).1 ∧
    (scanCore s).1.srcBytes = s.srcBytes ∧
    (scanCore s).1.tokBuf = [] ∧
    lastStart s ≤ (scanCore s).1.tokPos ∧
    (scanCore s).1.tokPos ≤ (scanCore s).1.tokEnd ∧
    (scanCore s).1.tokEnd = lastStart (scanCore s).1 ∧
    s.pos.Offset ≤ (scanCore s).1.pos.Offset := by
  obtain ⟨w1, w2, w3, w4, w5, w6, w7, w8⟩ :=
    skipWhitespace_spec (next s).1.rest (next s).1 (next s).2 rfl
  have hcinv1 : CInv (next s).1 := next_cinv hcinv
  obtain ⟨c1, cls⟩ := w8 hcinv1
  obtain ⟨a1, a2, a3, a4, a5, a6, a7, a8⟩ :=
    scanAfterSkip_spec (skipWhitespace (next s).1 (next s).2).1
      (skipWhitespace (next s).1 (next s).2).2 c1
  have hcore : scanCore s =
      scanAfterSkip (skipWhitespace (next s).1 (next s).2).1
        (skipWhitespace (next s).1 (next s).2).2 := rfl
  rw [hcore]
  refine ⟨a1, ?_, a3, ?_, a5, a6, ?_⟩
  · rw [a2, w1, next_srcBytes]
  · rw [a4]
    exact le_trans (next_lastStart_mono s hcinv.1) cls
  · exact le_trans (next_offset_mono s) (le_trans w7 a7)

/-! ### The full invariant and reachability -/

theorem newLexer_inv (input : List Char) : Inv (NewLexer input) := by
  refine ⟨⟨le_refl 0, le_refl 0, ?_⟩, rfl, rfl⟩
  show (0 : Int) + (byteLen input : Int) = ((input.map utf8EncodeChar).flatten.length : Int)
  have hb : byteLen input = (input.map utf8EncodeChar).flatten.length := by
    rw [List.length_flatten, List.map_map]
    rfl
  rw [hb]
  omega

theorem tokenLiteral_inv (s : Scanner) (h : Inv s) : TokenLiteral s = some (s, s.tokBuf) := by
  obtain ⟨hc, he, hl⟩ := h
  refine tokenLiteral_fixed s he ?_ ?_
  · rw [he, hl]
    exact cinv_lastStart_nonneg hc
  · rw [hl]
    exact le_trans (cinv_lastStart_le_offset hc) (cinv_offset_le_len hc)

theorem scan_spec (s : Scanner) (h : Inv s) :
    ∃ s6 tok, Scan s = some (s6, tok, s6.tokBuf) ∧ Inv s6 ∧
      s6.srcBytes = s.srcBytes ∧
      s6.tokEnd = (scanCore s).1.tokEnd ∧
      s6.pos = (scanCore s).1.pos ∧
      s6.lastCharLen = (scanCore s).1.lastCharLen ∧
      s.pos.Offset ≤ s6.pos.Offset ∧
      lastStart s ≤ (scanCore s).1.tokPos ∧
      (scanCore s).1.tokPos ≤ (scanCore s).1.tokEnd ∧
      tok = (scanCore s).2.2 := by
  obtain ⟨c1, c2, c3, c4, c5, c6, c7⟩ := scanCore_spec s h.1
  have hpos0 : 0 ≤ (scanCore s).1.tokPos :=
    le_trans (cinv_lastStart_nonneg h.1) c4
  have hend : (scanCore s).1.tokEnd ≤ ((scanCore s).1.srcBytes.length : Int) := by
    rw [c6]
    exact le_trans (cinv_lastStart_le_offset c1) (cinv_offset_le_len c1)
  have htl := tokenLiteral_some (scanCore s).1 hpos0 c5 hend
  have hscan : Scan s =
      some ({ (scanCore s).1 with
                tokBuf := (scanCore s).1.tokBuf ++
                  ((scanCore s).1.srcBytes.take (scanCore s).1.tokEnd.toNat).drop
                    (scanCore s).1.tokPos.toNat
                tokPos := (scanCore s).1.tokEnd },
             (scanCore s).2.2,
             (scanCore s).1.tokBuf ++
               ((scanCore s).1.srcBytes.take (scanCore s).1.tokEnd.toNat).drop
                 (scanCore s).1.tokPos.toNat) := by
    show (match TokenLiteral (scanCore s).1 with
          | none => none
          | some (s6, lit) => some (s6, (scanCore s).2.2, lit)) = _
    rw [htl]
  refine ⟨_, _, hscan, ?_, ?_, rfl, rfl, rfl, ?_, c4, c5, rfl⟩
  · refine ⟨c1, rfl, ?_⟩
    show (scanCore s).1.tokEnd = lastStart (scanCore s).1
    exact c6
  · show (scanCore s).1.srcBytes = s.srcBytes
    exact c2
  · show s.pos.Offset ≤ (scanCore s).1.pos.Offset
    exact c7

theorem reachable_inv {s : Scanner} (h : Reachable s) : Inv s := by
  induction h with
  | init input => exact newLexer_inv input
  | @scan s1 s' t lit hR heq ih =>
    obtain ⟨s6, tok, hscan, hinv, _⟩ := scan_spec s1 ih
    rw [hscan] at heq
    simp only [Option.some.injEq, Prod.mk.injEq] at heq
    obtain ⟨h1, h2, h3⟩ := heq
    rw [← h1]
    exact hinv
  | @tokenLiteral s1 s' lit hR heq ih =>
    have htl := tokenLiteral_inv s1 ih
    rw [htl] at heq
    simp only [Option.some.injEq, Prod.mk.injEq] at heq
    obtain ⟨h1, h2⟩ := heq
    rw [← h1]
    exact ih

/-! ### Scanning at and towards end of input -/

theorem isWhitespace_null : isWhitespace (Char.ofNat 0) = false := by decide

theorem isLetter_null : isLetter (Char.ofNat 0) = false := by decide

theorem scanAfterSkip_not_letter (s2 : Scanner) (ch : Char) (hl : isLetter ch = false) :
    scanAfterSkip s2 ch =
      ({ s2 with
          tokBuf := []
          tokPos := s2.pos.Offset - s2.lastCharLen
          tokEnd := s2.pos.Offset - s2.lastCharLen },
        ch, if ch = eof then Token.EOF else Token.ILLEGAL) := by
  unfold scanAfterSkip
  rw [hl]
  simp

theorem scanAfterSkip_token (s2 : Scanner) (ch : Char) :
    (scanAfterSkip s2 ch).2.2 =
      (if ch = eof then Token.EOF
       else if isLetter ch then Token.IDENT else Token.ILLEGAL) := by
  unfold scanAfterSkip
  by_cases hl : isLetter ch = true <;> simp [hl]

theorem scanCore_token (s : Scanner) :
    (scanCore s).2.2 =
      (if (scanCore s).2.1 = eof then Token.EOF
       else if isLetter (scanCore s).2.1 then Token.IDENT else Token.ILLEGAL) :=
  scanAfterSkip_token _ _

theorem skipWhitespace_drains :
    ∀ (r : List Char) (s : Scanner) (c : Char), s.rest = r →
      (∀ x ∈ r, isWhitespace x = true) → isWhitespace c = true →
      ∃ s' : Scanner, skipWhitespace s c = (s', Char.ofNat 0) ∧
        s'.rest = [] ∧ s'.ch = Char.ofNat 0 ∧ s'.srcBytes = s.srcBytes ∧
        s'.tokBuf = s.tokBuf ∧ s'.tokPos = s.tokPos ∧ s'.tokEnd = s.tokEnd ∧
        (CInv s → CInv s') := by
  intro r
  induction r with
  | nil =>
    intro s c hr hall hc
    rw [skipWhitespace_eq, if_pos hc]
    have hn := next_rest_nil hr
    have hr2 : (next s).1.rest = [] := by rw [hn]; exact hr
    have hc2 : (next s).2 = Char.ofNat 0 := by rw [hn]
    rw [skipWhitespace_eq, hc2, if_neg (by simp [isWhitespace_null])]
    refine ⟨(next s).1, rfl, hr2, ?_, next_srcBytes s, next_tokBuf s, next_tokPos s,
      next_tokEnd s, fun hcv => next_cinv hcv⟩
    rw [hn]
  | cons x xs ih =>
    intro s c hr hall hc
    rw [skipWhitespace_eq, if_pos hc]
    have hr2 : (next s).1.rest = xs := next_rest_tail hr
    have hx : isWhitespace (next s).2 = true := by
      have hc2 : (next s).2 = x := by rw [next_rest_cons hr]
      rw [hc2]
      exact hall x (List.mem_cons_self x xs)
    obtain ⟨s', hskip, p1, p2, p3, p4, p5, p6, p7⟩ :=
      ih (next s).1 (next s).2 hr2 (fun y hy => hall y (List.mem_cons_of_mem x hy)) hx
    refine ⟨s', hskip, p1, p2, ?_, ?_, ?_, ?_, ?_⟩
    · rw [p3, next_srcBytes]
    · rw [p4, next_tokBuf]
    · rw [p5, next_tokPos]
    · rw [p6, next_tokEnd]
    · intro hcv
      exact p7 (next_cinv hcv)

theorem scan_whitespace_all (input : List Char) (h : ∀ c ∈ input, isWhitespace c = true) :
    ∃ s2 : Scanner,
      Scan (NewLexer input) =
        some ({ s2 with
                  tokBuf := []
                  tokPos := s2.pos.Offset - s2.lastCharLen
                  tokEnd := s2.pos.Offset - s2.lastCharLen },
              Token.EOF, []) ∧
      s2.rest = [] ∧ s2.ch = Char.ofNat 0 ∧ s2.tokBuf = [] ∧ CInv s2 := by
  have hstep : ∃ s2 : Scanner,
      skipWhitespace (next (NewLexer input)).1 (next (NewLexer input)).2 =
        (s2, Char.ofNat 0) ∧
      s2.rest = [] ∧ s2.ch = Char.ofNat 0 ∧ s2.tokBuf = [] ∧ CInv s2 := by
    cases hr : (NewLexer input).rest with
    | nil =>
      have hn := next_rest_nil hr
      have hc2 : (next (NewLexer input)).2 = Char.ofNat 0 := by rw [hn]
      refine ⟨(next (NewLexer input)).1, ?_, ?_, ?_, ?_, ?_⟩
      · rw [skipWhitespace_eq, hc2, if_neg (by simp [isWhitespace_null])]
      · rw [hn]; exact hr
      · rw [hn]
      · rw [hn]; rfl
      · exact next_cinv (newLexer_inv input).1
    | cons c r =>
      have hin : input = c :: r := hr
      have hc2 : (next (NewLexer input)).2 = c := by rw [next_rest_cons hr]
      have hr2 : (next (NewLexer input)).1.rest = r := next_rest_tail hr
      have hcws : isWhitespace c = true := h c (by rw [hin]; exact List.mem_cons_self c r)
      obtain ⟨s2, hsk, p1, p2, p3, p4, p5, p6, p7⟩ :=
        skipWhitespace_drains r (next (NewLexer input)).1 (next (NewLexer input)).2 hr2
          (fun y hy => h y (by rw [hin]; exact List.mem_cons_of_mem c hy))
          (by rw [hc2]; exact hcws)
      refine ⟨s2, hsk, p1, p2, ?_, ?_⟩
      · rw [p4, next_tokBuf]; rfl
      · exact p7 (next_cinv (newLexer_inv input).1)
  obtain ⟨s2, hskip, q1, q2, q3, q4⟩ := hstep
  have hcore : scanCore (NewLexer input) = scanAfterSkip s2 (Char.ofNat 0) := by
    show scanAfterSkip (skipWhitespace (next (NewLexer input)).1 (next (NewLexer input)).2).1
        (skipWhitespace (next (NewLexer input)).1 (next (NewLexer input)).2).2 = _
    rw [hskip]
  have hsas := scanAfterSkip_not_letter s2 (Char.ofNat 0) isLetter_null
  have heof0 : (if Char.ofNat 0 = eof then Token.EOF else Token.ILLEGAL) = Token.EOF :=
    if_pos rfl
  rw [heof0] at hsas
  have hS5inv : Inv { s2 with
      tokBuf := []
      tokPos := s2.pos.Offset - s2.lastCharLen
      tokEnd := s2.pos.Offset - s2.lastCharLen } := ⟨q4, rfl, rfl⟩
  have htl := tokenLiteral_inv _ hS5inv
  refine ⟨s2, ?_, q1, q2, q3, q4⟩
  show (match TokenLiteral (scanCore (NewLexer input)).1 with
        | none => none
        | some (s6, lit) => some (s6, (scanCore (NewLexer input)).2.2, lit)) = _
  rw [hcore, hsas]
  show (match TokenLiteral { s2 with
          tokBuf := []
          tokPos := s2.pos.Offset - s2.lastCharLen
          tokEnd := s2.pos.Offset - s2.lastCharLen } with
        | none => none
        | some (s6, lit) => some (s6, Token.EOF, lit)) = _
  rw [htl]

theorem scan_at_eof (s : Scanner) (h1 : s.rest = []) (h2 : s.ch = Char.ofNat 0)
    (h3 : s.tokBuf = []) (h4 : s.tokPos = lastStart s) (h5 : s.tokEnd = lastStart s)
    (hc : CInv s) :
    Scan s = some (s, Token.EOF, []) := by
  have hid : ({ s with ch := Char.ofNat 0 } : Scanner) = s := by
    obtain ⟨f1, f2, f3, f4, f5, f6, f7, f8⟩ := s
    simp only at h2
    subst h2
    rfl
  have hnext : next s = (s, Char.ofNat 0) := by rw [next_rest_nil h1, hid]
  have hskip : skipWhitespace (next s).1 (next s).2 = (s, Char.ofNat 0) := by
    rw [hnext]
    rw [skipWhitespace_eq, if_neg (by simp [isWhitespace_null])]
  have hcore : scanCore s = scanAfterSkip s (Char.ofNat 0) := by
    show scanAfterSkip (skipWhitespace (next s).1 (next s).2).1
        (skipWhitespace (next s).1 (next s).2).2 = _
    rw [hskip]
  have hsas := scanAfterSkip_not_letter s (Char.ofNat 0) isLetter_null
  have heof0 : (if Char.ofNat 0 = eof then Token.EOF else Token.ILLEGAL) = Token.EOF :=
    if_pos rfl
  rw [heof0] at hsas
  have hS5 : ({ s with
      tokBuf := []
      tokPos := s.pos.Offset - s.lastCharLen
      tokEnd := s.pos.Offset - s.lastCharLen } : Scanner) = s := by
    obtain ⟨f1, f2, f3, f4, f5, f6, f7, f8⟩ := s
    simp only at h3 h4 h5
    unfold lastStart at h4 h5
    simp only at h4 h5
    subst h3
    subst h4
    subst h5
    rfl
  rw [hS5] at hsas
  have htl := tokenLiteral_inv s ⟨hc, h4.trans h5.symm, h5⟩
  show (match TokenLiteral (scanCore s).1 with
        | none => none
        | some (s6, lit) => some (s6, (scanCore s).2.2, lit)) = _
  rw [hcore, hsas]
  show (match TokenLiteral s with
        | none => none
        | some (s6, lit) => some (s6, Token.EOF, lit)) = _
  rw [htl, h3]

/-! ### Lemmas about the byte-level model -/

theorem decodeRuneB_size (b : Nat) (bs : List Nat) :
    1 ≤ (decodeRuneB (b :: bs)).2 ∧ (decodeRuneB (b :: bs)).2 ≤ (b :: bs).length := by
  unfold decodeRuneB
  repeat' split
  all_goals simp_all [List.length_cons]

theorem nextB_rest_nil {s : ScannerB} (h : s.rest = []) :
    nextB s = ({ s with ch := Char.ofNat 0 }, Char.ofNat 0) := by
  simp [nextB, h]

theorem nextB_srcBytes (s : ScannerB) : (nextB s).1.srcBytes = s.srcBytes := by
  cases h : s.rest with
  | nil => simp [nextB, h]
  | cons b bs => simp [nextB, h]

theorem nextB_tokBuf (s : ScannerB) : (nextB s).1.tokBuf = s.tokBuf := by
  cases h : s.rest with
  | nil => simp [nextB, h]
  | cons b bs => simp [nextB, h]

theorem nextB_tokPos (s : ScannerB) : (nextB s).1.tokPos = s.tokPos := by
  cases h : s.rest with
  | nil => simp [nextB, h]
  | cons b bs => simp [nextB, h]

theorem nextB_tokEnd (s : ScannerB) : (nextB s).1.tokEnd = s.tokEnd := by
  cases h : s.rest with
  | nil => simp [nextB, h]
  | cons b bs => simp [nextB, h]

theorem nextB_pos_offset_cons {s : ScannerB} {b : Nat} {bs : List Nat}
    (h : s.rest = b :: bs) :
    (nextB s).1.pos.Offset = s.pos.Offset + ((decodeRuneB (b :: bs)).2 : Int) := by
  by_cases hc : (decodeRuneB (b :: bs)).1 = '\n' <;> simp [nextB, h, hc]

theorem nextB_lastCharLen_cons {s : ScannerB} {b : Nat} {bs : List Nat}
    (h : s.rest = b :: bs) :
    (nextB s).1.lastCharLen = ((decodeRuneB (b :: bs)).2 : Int) := by
  by_cases hc : (decodeRuneB (b :: bs)).1 = '\n' <;> simp [nextB, h, hc]

theorem nextB_rest_cons {s : ScannerB} {b : Nat} {bs : List Nat} (h : s.rest = b :: bs) :
    (nextB s).1.rest = (b :: bs).drop (decodeRuneB (b :: bs)).2 := by
  by_cases hc : (decodeRuneB (b :: bs)).1 = '\n' <;> simp [nextB, h, hc]

theorem nextB_rest_length {s : ScannerB} {b : Nat} {bs : List Nat} (h : s.rest = b :: bs) :
    (nextB s).1.rest.length + (decodeRuneB (b :: bs)).2 = (b :: bs).length := by
  obtain ⟨h1, h2⟩ := decodeRuneB_size b bs
  rw [nextB_rest_cons h, List.length_drop]
  omega

theorem nextB_lastStart_mono (s : ScannerB) (h0 : 0 ≤ s.lastCharLen) :
    lastStartB s ≤ lastStartB (nextB s).1 := by
  cases h : s.rest with
  | nil => rw [nextB_rest_nil h]; simp [lastStartB]
  | cons b bs =>
    have ho := nextB_pos_offset_cons h
    have hl := nextB_lastCharLen_cons h
    unfold lastStartB
    rw [ho, hl]
    omega

theorem nextB_cinv {s : ScannerB} (h : CInvB s) : CInvB (nextB s).1 := by
  obtain ⟨h1, h2, h3⟩ := h
  cases hr : s.rest with
  | nil =>
    rw [nextB_rest_nil hr]
    exact ⟨h1, h2, by simpa using h3⟩
  | cons b bs =>
    have ho := nextB_pos_offset_cons hr
    have hl := nextB_lastCharLen_cons hr
    have hlen := nextB_rest_length hr
    have hb : (nextB s).1.srcBytes = s.srcBytes := nextB_srcBytes s
    have hsz : 0 ≤ ((decodeRuneB (b :: bs)).2 : Int) := Int.ofNat_nonneg _
    refine ⟨by rw [hl]; exact hsz, by rw [hl, ho]; omega, ?_⟩
    rw [ho, hb]
    rw [hr] at h3
    omega

theorem nextB_offset_mono (s : ScannerB) : s.pos.Offset ≤ (nextB s).1.pos.Offset := by
  cases h : s.rest with
  | nil => rw [nextB_rest_nil h]
  | cons b bs =>
    rw [nextB_pos_offset_cons h]
    have : (0 : Int) ≤ ((decodeRuneB (b :: bs)).2 : Int) := Int.ofNat_nonneg _
    omega

theorem cinvB_lastStart_nonneg {s : ScannerB} (h : CInvB s) : 0 ≤ lastStartB s := by
  obtain ⟨h1, h2, h3⟩ := h
  unfold lastStartB
  omega

theorem cinvB_lastStart_le_offset {s : ScannerB} (h : CInvB s) :
    lastStartB s ≤ s.pos.Offset := by
  obtain ⟨h1, h2, h3⟩ := h
  unfold lastStartB
  omega

theorem cinvB_offset_le_len {s : ScannerB} (h : CInvB s) :
    s.pos.Offset ≤ (s.srcBytes.length : Int) := by
  obtain ⟨h1, h2, h3⟩ := h
  have : (0 : Int) ≤ (s.rest.length : Int) := Int.ofNat_nonneg _
  omega

theorem skipWhitespaceAuxB_not_ws (fuel : Nat) (s : ScannerB) (c : Char)
    (hc : isWhitespace c = false) : skipWhitespaceAuxB fuel s c = (s, c) := by
  cases fuel <;> simp [skipWhitespaceAuxB, hc]

theorem skipWhitespaceAuxB_irrel :
    ∀ (fuel₁ fuel₂ : Nat) (s : ScannerB) (c : Char),
      s.rest.length + 1 ≤ fuel₁ → s.rest.length + 1 ≤ fuel₂ →
      skipWhitespaceAuxB fuel₁ s c = skipWhitespaceAuxB fuel₂ s c := by
  intro fuel₁
  induction fuel₁ with
  | zero => intro fuel₂ s c h1 h2; omega
  | succ m ih =>
    intro fuel₂ s c h1 h2
    by_cases hc : isWhitespace c = true
    · cases fuel₂ with
      | zero => omega
      | succ k =>
        have hunf1 : skipWhitespaceAuxB (m + 1) s c =
            skipWhitespaceAuxB m (nextB s).1 (nextB s).2 := by
          simp [skipWhitespaceAuxB, hc]
        have hunf2 : skipWhitespaceAuxB (k + 1) s c =
            skipWhitespaceAuxB k (nextB s).1 (nextB s).2 := by
          simp [skipWhitespaceAuxB, hc]
        rw [hunf1, hunf2]
        cases hr : s.rest with
        | nil =>
          have hc2 : (nextB s).2 = Char.ofNat 0 := by rw [nextB_rest_nil hr]
          rw [hc2, skipWhitespaceAuxB_not_ws m _ _ isWhitespace_null,
            skipWhitespaceAuxB_not_ws k _ _ isWhitespace_null]
        | cons b bs =>
          have hlen := nextB_rest_length hr
          obtain ⟨hs1, hs2⟩ := decodeRuneB_size b bs
          rw [hr] at h1 h2
          exact ih k (nextB s).1 (nextB s).2 (by omega) (by omega)
    · have hcf : isWhitespace c = false := by simpa using hc
      rw [skipWhitespaceAuxB_not_ws _ _ _ hcf, skipWhitespaceAuxB_not_ws _ _ _ hcf]

theorem skipWhitespaceB_eq (s : ScannerB) (c : Char) :
    skipWhitespaceB s c =
      if isWhitespace c then skipWhitespaceB (nextB s).1 (nextB s).2 else (s, c) := by
  by_cases hc : isWhitespace c = true
  · rw [if_pos hc]
    unfold skipWhitespaceB
    have hunf : skipWhitespaceAuxB (s.rest.length + 1) s c =
        skipWhitespaceAuxB s.rest.length (nextB s).1 (nextB s).2 := by
      simp [skipWhitespaceAuxB, hc]
    rw [hunf]
    cases hr : s.rest with
    | nil =>
      have hn := nextB_rest_nil hr
      have hc2 : (nextB s).2 = Char.ofNat 0 := by rw [hn]
      rw [hc2, skipWhitespaceAuxB_not_ws _ _ _ isWhitespace_null,
        skipWhitespaceAuxB_not_ws _ _ _ isWhitespace_null]
    | cons b bs =>
      have hlen := nextB_rest_length hr
      obtain ⟨hs1, hs2⟩ := decodeRuneB_size b bs
      exact skipWhitespaceAuxB_irrel _ _ _ _ (by omega) (by omega)
  · rw [if_neg hc]
    unfold skipWhitespaceB
    exact skipWhitespaceAuxB_not_ws _ _ _ (by simpa using hc)

theorem scanIdentifierAuxB_not_ident (fuel : Nat) (s : ScannerB)
    (hc : (isLetter s.ch || isDigit s.ch) = false) : scanIdentifierAuxB fuel s = s := by
  cases fuel <;> simp [scanIdentifierAuxB, hc]

theorem scanIdentifierAuxB_irrel :
    ∀ (fuel₁ fuel₂ : Nat) (s : ScannerB),
      s.rest.length + 1 ≤ fuel₁ → s.rest.length + 1 ≤ fuel₂ →
      scanIdentifierAuxB fuel₁ s = scanIdentifierAuxB fuel₂ s := by
  intro fuel₁
  induction fuel₁ with
  | zero => intro fuel₂ s h1 h2; omega
  | succ m ih =>
    intro fuel₂ s h1 h2
    by_cases hc : (isLetter s.ch || isDigit s.ch) = true
    · cases fuel₂ with
      | zero => omega
      | succ k =>
        have hunf1 : scanIdentifierAuxB (m + 1) s = scanIdentifierAuxB m (nextB s).1 := by
          simp [scanIdentifierAuxB, hc]
        have hunf2 : scanIdentifierAuxB (k + 1) s = scanIdentifierAuxB k (nextB s).1 := by
          simp [scanIdentifierAuxB, hc]
        rw [hunf1, hunf2]
        cases hr : s.rest with
        | nil =>
          have hch : (nextB s).1.ch = Char.ofNat 0 := by rw [nextB_rest_nil hr]
          have h0 : (isLetter (nextB s).1.ch || isDigit (nextB s).1.ch) = false := by
            rw [hch]; decide
          rw [scanIdentifierAuxB_not_ident m _ h0, scanIdentifierAuxB_not_ident k _ h0]
        | cons b bs =>
          have hlen := nextB_rest_length hr
          obtain ⟨hs1, hs2⟩ := decodeRuneB_size b bs
          rw [hr] at h1 h2
          exact ih k (nextB s).1 (by omega) (by omega)
    · have hcf : (isLetter s.ch || isDigit s.ch) = false := by simpa using hc
      rw [scanIdentifierAuxB_not_ident _ _ hcf, scanIdentifierAuxB_not_ident _ _ hcf]

theorem scanIdentifierB_eq (s : ScannerB) :
    scanIdentifierB s =
      if isLetter s.ch || isDigit s.ch then scanIdentifierB (nextB s).1 else s := by
  by_cases hc : (isLetter s.ch || isDigit s.ch) = true
  · rw [if_pos hc]
    unfold scanIdentifierB
    have hunf : scanIdentifierAuxB (s.rest.length + 1) s =
        scanIdentifierAuxB s.rest.length (nextB s).1 := by
      simp [scanIdentifierAuxB, hc]
    rw [hunf]
    cases hr : s.rest with
    | nil =>
      have hch : (nextB s).1.ch = Char.ofNat 0 := by rw [nextB_rest_nil hr]
      have h0 : (isLetter (nextB s).1.ch || isDigit (nextB s).1.ch) = false := by
        rw [hch]; decide
      rw [scanIdentifierAuxB_not_ident _ _ h0, scanIdentifierAuxB_not_ident _ _ h0]
    | cons b bs =>
      have hlen := nextB_rest_length hr
      obtain ⟨hs1, hs2⟩ := decodeRuneB_size b bs
      exact scanIdentifierAuxB_irrel _ _ _ (by omega) (by omega)
  · rw [if_neg hc]
    unfold scanIdentifierB
    exact scanIdentifierAuxB_not_ident _ _ (by simpa using hc)

theorem skipWhitespaceAuxB_spec :
    ∀ (fuel : Nat) (s : ScannerB) (c : Char),
      (skipWhitespaceAuxB fuel s c).1.srcBytes = s.srcBytes ∧
      (skipWhitespaceAuxB fuel s c).1.tokBuf = s.tokBuf ∧
      (skipWhitespaceAuxB fuel s c).1.tokPos = s.tokPos ∧
      (skipWhitespaceAuxB fuel s c).1.tokEnd = s.tokEnd ∧
      (CInvB s → CInvB (skipWhitespaceAuxB fuel s c).1 ∧
        lastStartB s ≤ lastStartB (skipWhitespaceAuxB fuel s c).1) := by
  intro fuel
  induction fuel with
  | zero => intro s c; exact ⟨rfl, rfl, rfl, rfl, fun h => ⟨h, le_refl _⟩⟩
  | succ m ih =>
    intro s c
    by_cases hc : isWhitespace c = true
    · have hunf : skipWhitespaceAuxB (m + 1) s c =
          skipWhitespaceAuxB m (nextB s).1 (nextB s).2 := by
        simp [skipWhitespaceAuxB, hc]
      rw [hunf]
      obtain ⟨i1, i2, i3, i4, i5⟩ := ih (nextB s).1 (nextB s).2
      refine ⟨?_, ?_, ?_, ?_, ?_⟩
      · rw [i1, nextB_srcBytes]
      · rw [i2, nextB_tokBuf]
      · rw [i3, nextB_tokPos]
      · rw [i4, nextB_tokEnd]
      · intro hcv
        obtain ⟨j1, j2⟩ := i5 (nextB_cinv hcv)
        exact ⟨j1, le_trans (nextB_lastStart_mono s hcv.1) j2⟩
    · rw [skipWhitespaceAuxB_not_ws _ _ _ (by simpa using hc)]
      exact ⟨rfl, rfl, rfl, rfl, fun h => ⟨h, le_refl _⟩⟩

theorem scanIdentifierAuxB_spec :
    ∀ (fuel : Nat) (s : ScannerB),
      (scanIdentifierAuxB fuel s).srcBytes = s.srcBytes ∧
      (scanIdentifierAuxB fuel s).tokBuf = s.tokBuf ∧
      (scanIdentifierAuxB fuel s).tokPos = s.tokPos ∧
      (scanIdentifierAuxB fuel s).tokEnd = s.tokEnd ∧
      (CInvB s → CInvB (scanIdentifierAuxB fuel s) ∧
        lastStartB s ≤ lastStartB (scanIdentifierAuxB fuel s)) := by
  intro fuel
  induction fuel with
  | zero => intro s; exact ⟨rfl, rfl, rfl, rfl, fun h => ⟨h, le_refl _⟩⟩
  | succ m ih =>
    intro s
    by_cases hc : (isLetter s.ch || isDigit s.ch) = true
    · have hunf : scanIdentifierAuxB (m + 1) s = scanIdentifierAuxB m (nextB s).1 := by
        simp [scanIdentifierAuxB, hc]
      rw [hunf]
      obtain ⟨i1, i2, i3, i4, i5⟩ := ih (nextB s).1
      refine ⟨?_, ?_, ?_, ?_, ?_⟩
      · rw [i1, nextB_srcBytes]
      · rw [i2, nextB_tokBuf]
      · rw [i3, nextB_tokPos]
      · rw [i4, nextB_tokEnd]
      · intro hcv
        obtain ⟨j1, j2⟩ := i5 (nextB_cinv hcv)
        exact ⟨j1, le_trans (nextB_lastStart_mono s hcv.1) j2⟩
    · rw [scanIdentifierAuxB_not_ident _ _ (by simpa using hc)]
      exact ⟨rfl, rfl, rfl, rfl, fun h => ⟨h, le_refl _⟩⟩

theorem tokenLiteralB_some (s : ScannerB) (h0 : 0 ≤ s.tokPos) (h1 : s.tokPos ≤ s.tokEnd)
    (h2 : s.tokEnd ≤ (s.srcBytes.length : Int)) :
    TokenLiteralB s =
      some ({ s with
              tokBuf := s.tokBuf ++ (s.srcBytes.take s.tokEnd.toNat).drop s.tokPos.toNat
              tokPos := s.tokEnd },
            s.tokBuf ++ (s.srcBytes.take s.tokEnd.toNat).drop s.tokPos.toNat) := by
  unfold TokenLiteralB
  rw [if_neg (by omega)]
  unfold goSlice
  rw [if_pos ⟨h0, h1, h2⟩]

theorem tokenLiteralB_fixed (s : ScannerB) (he : s.tokPos = s.tokEnd) (h0 : 0 ≤ s.tokPos)
    (h2 : s.tokEnd ≤ (s.srcBytes.length : Int)) :
    TokenLiteralB s = some (s, s.tokBuf) := by
  rw [tokenLiteralB_some s h0 (le_of_eq he) h2]
  have hdrop : (s.srcBytes.take s.tokEnd.toNat).drop s.tokPos.toNat = [] := by
    apply List.drop_eq_nil_of_le
    rw [he]
    exact List.length_take_le _ _
  rw [hdrop, List.append_nil]
  obtain ⟨f1, f2, f3, f4, f5, f6, f7, f8⟩ := s
  simp only at he
  subst he
  rfl

theorem tokenLiteralB_inv (s : ScannerB) (h : InvB s) :
    TokenLiteralB s = some (s, s.tokBuf) := by
  obtain ⟨hc, he, hl⟩ := h
  refine tokenLiteralB_fixed s he ?_ ?_
  · rw [he, hl]
    exact cinvB_lastStart_nonneg hc
  · rw [hl]
    exact le_trans (cinvB_lastStart_le_offset hc) (cinvB_offset_le_len hc)

theorem scanAfterSkipB_spec (s2 : ScannerB) (ch : Char) (hc : CInvB s2) :
    CInvB (scanAfterSkipB s2 ch).1 ∧
    (scanAfterSkipB s2 ch).1.tokBuf = [] ∧
    (scanAfterSkipB s2 ch).1.tokPos = lastStartB s2 ∧
    (scanAfterSkipB s2 ch).1.tokPos ≤ (scanAfterSkipB s2 ch).1.tokEnd ∧
    (scanAfterSkipB s2 ch).1.tokEnd = lastStartB (scanAfterSkipB s2 ch).1 := by
  set s3 : ScannerB := { s2 with tokBuf := [], tokPos := s2.pos.Offset - s2.lastCharLen }
    with hs3
  by_cases hl : isLetter ch = true
  · have hcore : scanAfterSkipB s2 ch =
        ({ scanIdentifierB s3 with
            tokEnd := (scanIdentifierB s3).pos.Offset - (scanIdentifierB s3).lastCharLen },
          ch,
          if ch = eof then Token.EOF else Token.IDENT) := by
      rw [hs3]
      unfold scanAfterSkipB
      rw [hl]
      simp
    obtain ⟨a1, a2, a3, a4, a5⟩ := scanIdentifierAuxB_spec (s3.rest.length + 1) s3
    have hc3 : CInvB s3 := by rw [hs3]; exact hc
    obtain ⟨b1, b2⟩ := a5 hc3
    have h1 : CInvB (scanAfterSkipB s2 ch).1 := by rw [hcore]; exact b1
    have h2 : (scanAfterSkipB s2 ch).1.tokBuf = [] := by
      rw [hcore]
      show (scanIdentifierAuxB (s3.rest.length + 1) s3).tokBuf = []
      rw [a2, hs3]
    have h3 : (scanAfterSkipB s2 ch).1.tokPos = lastStartB s2 := by
      rw [hcore]
      show (scanIdentifierAuxB (s3.rest.length + 1) s3).tokPos = lastStartB s2
      rw [a3, hs3]
      rfl
    have h4 : (scanAfterSkipB s2 ch).1.tokPos ≤ (scanAfterSkipB s2 ch).1.tokEnd := by
      rw [hcore]
      show (scanIdentifierAuxB (s3.rest.length + 1) s3).tokPos ≤
        (scanIdentifierAuxB (s3.rest.length + 1) s3).pos.Offset -
          (scanIdentifierAuxB (s3.rest.length + 1) s3).lastCharLen
      rw [a3]
      have hx : s3.tokPos = lastStartB s3 := by rw [hs3]; rfl
      rw [hx]
      exact b2
    have h5 : (scanAfterSkipB s2 ch).1.tokEnd = lastStartB (scanAfterSkipB s2 ch).1 := by
      rw [hcore]
      rfl
    exact ⟨h1, h2, h3, h4, h5⟩
  · have hcore : scanAfterSkipB s2 ch =
        ({ s3 with tokEnd := s3.pos.Offset - s3.lastCharLen },
          ch,
          if ch = eof then Token.EOF else Token.ILLEGAL) := by
      rw [hs3]
      unfold scanAfterSkipB
      rw [Bool.of_not_eq_true hl]
      simp
    refine ⟨?_, ?_, ?_, ?_, ?_⟩
    · rw [hcore]; exact hc
    · rw [hcore]
    · rw [hcore]
      show s3.tokPos = lastStartB s2
      rw [hs3]
      rfl
    · rw [hcore]
    · rw [hcore]
      rfl

theorem scanCoreB_spec (s : ScannerB) (h : CInvB s) :
    CInvB (scanCoreB s).1 ∧
    (scanCoreB s).1.tokBuf = [] ∧
    0 ≤ (scanCoreB s).1.tokPos ∧
    (scanCoreB s).1.tokPos ≤ (scanCoreB s).1.tokEnd ∧
    (scanCoreB s).1.tokEnd = lastStartB (scanCoreB s).1 := by
  have hc1 : CInvB (nextB s).1 := nextB_cinv h
  obtain ⟨w1, w2, w3, w4, w5⟩ :=
    skipWhitespaceAuxB_spec ((nextB s).1.rest.length + 1) (nextB s).1 (nextB s).2
  obtain ⟨c2, _⟩ := w5 hc1
  have hc2 : CInvB (skipWhitespaceB (nextB s).1 (nextB s).2).1 := c2
  obtain ⟨a1, a2, a3, a4, a5⟩ :=
    scanAfterSkipB_spec (skipWhitespaceB (nextB s).1 (nextB s).2).1
      (skipWhitespaceB (nextB s).1 (nextB s).2).2 hc2
  have hcore : scanCoreB s =
      scanAfterSkipB (skipWhitespaceB (nextB s).1 (nextB s).2).1
        (skipWhitespaceB (nextB s).1 (nextB s).2).2 := rfl
  rw [hcore]
  refine ⟨a1, a2, ?_, a4, a5⟩
  rw [a3]
  exact cinvB_lastStart_nonneg hc2

theorem newLexerB_inv (input : List Nat) : InvB (NewLexerB input) := by
  refine ⟨⟨le_refl 0, le_refl 0, ?_⟩, rfl, rfl⟩
  show (0 : Int) + (input.length : Int) = (input.length : Int)
  omega

theorem scanB_spec (s : ScannerB) (h : InvB s) :
    ∃ s6 tok, ScanB s = some (s6, tok, s6.tokBuf) ∧ InvB s6 := by
  obtain ⟨c1, c2, c3, c4, c5⟩ := scanCoreB_spec s h.1
  have hend : (scanCoreB s).1.tokEnd ≤ ((scanCoreB s).1.srcBytes.length : Int) := by
    rw [c5]
    exact le_trans (cinvB_lastStart_le_offset c1) (cinvB_offset_le_len c1)
  have htl := tokenLiteralB_some (scanCoreB s).1 c3 c4 hend
  have hscan : ScanB s =
      some ({ (scanCoreB s).1 with
                tokBuf := (scanCoreB s).1.tokBuf ++
                  ((scanCoreB s).1.srcBytes.take (scanCoreB s).1.tokEnd.toNat).drop
                    (scanCoreB s).1.tokPos.toNat
                tokPos := (scanCoreB s).1.tokEnd },
             (scanCoreB s).2.2,
             (scanCoreB s).1.tokBuf ++
               ((scanCoreB s).1.srcBytes.take (scanCoreB s).1.tokEnd.toNat).drop
                 (scanCoreB s).1.tokPos.toNat) := by
    show (match TokenLiteralB (scanCoreB s).1 with
          | none => none
          | some (s6, lit) => some (s6, (scanCoreB s).2.2, lit)) = _
    rw [htl]
  refine ⟨_, _, hscan, ?_⟩
  refine ⟨c1, rfl, ?_⟩
  show (scanCoreB s).1.tokEnd = lastStartB (scanCoreB s).1
  exact c5

theorem reachableB_inv {s : ScannerB} (h : ReachableB s) : InvB s := by
  induction h with
  | init input => exact newLexerB_inv input
  | @scan s1 s' t lit hR heq ih =>
    obtain ⟨s6, tok, hscan, hinv⟩ := scanB_spec s1 ih
    rw [hscan] at heq
    simp only [Option.some.injEq, Prod.mk.injEq] at heq
    obtain ⟨h1, h2, h3⟩ := heq
    rw [← h1]
    exact hinv
  | @tokenLiteral s1 s' lit hR heq ih =>
    have htl := tokenLiteralB_inv s1 ih
    rw [htl] at heq
    simp only [Option.some.injEq, Prod.mk.injEq] at heq
    obtain ⟨h1, h2⟩ := heq
    rw [← h1]
    exact ih

/-! ### Claim theorems -/

/-- C1: the claim says a single-identifier input yields `IDENT` with literal
equal to the entire input, with no byte dropped.  Evaluating the code on the
single-letter input "a" (and on "café"): `Scan` does return `IDENT` and the
next call does return `EOF`, but the literal is missing its final character
(`""` instead of `"a"`, `"caf"` instead of `"café"`), because `tokEnd`
subtracts the stale `lastCharLen` after `next` fails at end of input. -/
theorem identifier_at_eof_drops_last_byte :
    ((Scan (NewLexer ['a'])).map fun r => (r.2.1, r.2.2)) = some (Token.IDENT, []) ∧
    (NewLexer ['a']).srcBytes = [97] ∧
    (((Scan (NewLexer ['a'])).bind fun r => Scan r.1).map fun r => (r.2.1, r.2.2)) =
      some (Token.EOF, []) ∧
    ((Scan (NewLexer ['c', 'a', 'f', 'é'])).map fun r => (r.2.1, r.2.2)) =
      some (Token.IDENT, [99, 97, 102]) ∧
    (NewLexer ['c', 'a', 'f', 'é']).srcBytes = [99, 97, 102, 195, 169] :=
  ⟨rfl, rfl, rfl, rfl, rfl⟩

/-- C2: the claim says `Pos` reports the live cursor position, with
`line = 2, column = 1` after scanning the two tokens of "a\nb".  Evaluating
the code: the second `Scan` even returns an empty literal (the trailing-byte
bug of C1), `Pos` always returns the zero `Position`, and even the internal
cursor reports `line = 1` (the line counter is never initialised to 1). -/
theorem pos_returns_zero_position :
    ((Scan (NewLexer ['a', '\n', 'b'])).map fun r => (r.2.1, r.2.2)) =
      some (Token.IDENT, [97]) ∧
    (((Scan (NewLexer ['a', '\n', 'b'])).bind fun r => Scan r.1).map fun r =>
        (r.2.1, r.2.2)) = some (Token.IDENT, []) ∧
    (((Scan (NewLexer ['a', '\n', 'b'])).bind fun r => Scan r.1).map fun r => Pos r.1) =
      some (Position.mk 0 0 0) ∧
    (((Scan (NewLexer ['a', '\n', 'b'])).bind fun r => Scan r.1).map fun r => r.1.pos) =
      some (Position.mk 3 1 1) :=
  ⟨rfl, rfl, rfl, rfl⟩

/-- C3: for every input consisting solely of whitespace (including the empty
input), `Scan` returns the `EOF` tag with an empty literal, never `IDENT`,
and every further `Scan` returns the identical result on the identical
state, so the cursor does not advance further. -/
theorem whitespace_only_scans_eof (input : List Char)
    (h : ∀ c ∈ input, isWhitespace c = true) :
    ((Scan (NewLexer input)).map fun r => (r.2.1, r.2.2)) = some (Token.EOF, []) ∧
    ((Scan (NewLexer input)).bind fun r => Scan r.1) = Scan (NewLexer input) := by
  obtain ⟨s2, hscan, hrest, hch, hbuf, hcinv⟩ := scan_whitespace_all input h
  have hfix : Scan { s2 with
      tokBuf := []
      tokPos := s2.pos.Offset - s2.lastCharLen
      tokEnd := s2.pos.Offset - s2.lastCharLen } =
      some ({ s2 with
          tokBuf := []
          tokPos := s2.pos.Offset - s2.lastCharLen
          tokEnd := s2.pos.Offset - s2.lastCharLen }, Token.EOF, []) :=
    scan_at_eof _ hrest hch rfl rfl rfl hcinv
  constructor
  · rw [hscan]
    rfl
  · rw [hscan]
    exact hfix

/-- C3 witness: the concrete all-whitespace input " \t\n\r". -/
theorem whitespace_only_scans_eof_witness :
    (∀ c ∈ [' ', '\t', '\n', '\r'], isWhitespace c = true) ∧
    (((Scan (NewLexer [' ', '\t', '\n', '\r'])).map fun r => (r.2.1, r.2.2)) =
        some (Token.EOF, []) ∧
      ((Scan (NewLexer [' ', '\t', '\n', '\r'])).bind fun r => Scan r.1) =
        Scan (NewLexer [' ', '\t', '\n', '\r'])) :=
  ⟨by decide, whitespace_only_scans_eof [' ', '\t', '\n', '\r'] (by decide)⟩

/-- C4: for consecutive `Scan` calls from a reachable state, the lexeme
span recorded by the call (`tokPos`/`tokEnd` as assigned inside `Scan`,
i.e. in `scanCore`) satisfies: start ≤ end, the recorded end survives in
the returned state's `tokEnd`, and the next call's recorded start is at or
after it — so recorded lexeme starts never decrease and the cursor never
rewinds. -/
theorem scan_spans_monotone (s s1 : Scanner) (t1 : Token) (l1 : List Nat)
    (hs : Reachable s) (h1 : Scan s = some (s1, t1, l1)) :
    (scanCore s).1.tokPos ≤ (scanCore s).1.tokEnd ∧
    (scanCore s).1.tokEnd = s1.tokEnd ∧
    s1.tokEnd ≤ (scanCore s1).1.tokPos := by
  have hinv := reachable_inv hs
  obtain ⟨s6, tok, hscan, hinv6, hsrc, hte, hpo, hlc, hoff, hls, htpe, htok⟩ :=
    scan_spec s hinv
  rw [hscan] at h1
  simp only [Option.some.injEq, Prod.mk.injEq] at h1
  obtain ⟨e1, e2, e3⟩ := h1
  have hinv1 : Inv s1 := by rw [← e1]; exact hinv6
  have hte1 : s6.tokEnd = s1.tokEnd := by rw [e1]
  refine ⟨htpe, by rw [← hte1, hte], ?_⟩
  obtain ⟨d1, d2, d3, d4, d5, d6, d7⟩ := scanCore_spec s1 hinv1.1
  rw [hinv1.2.2]
  exact d4

/-- C4 witness: scanning the single-identifier input "a" once from a fresh
lexer. -/
theorem scan_spans_monotone_witness :
    Reachable (NewLexer ['a']) ∧
    Scan (NewLexer ['a']) =
      some (Scanner.mk [] [97] (Char.ofNat 0) 1 (Position.mk 1 0 1) [] 0 0,
        Token.IDENT, []) ∧
    ((scanCore (NewLexer ['a'])).1.tokPos ≤ (scanCore (NewLexer ['a'])).1.tokEnd ∧
      (scanCore (NewLexer ['a'])).1.tokEnd =
        (Scanner.mk [] [97] (Char.ofNat 0) 1 (Position.mk 1 0 1) [] 0 0).tokEnd ∧
      (Scanner.mk [] [97] (Char.ofNat 0) 1 (Position.mk 1 0 1) [] 0 0).tokEnd ≤
        (scanCore (Scanner.mk [] [97] (Char.ofNat 0) 1 (Position.mk 1 0 1) [] 0 0)).1.tokPos) :=
  ⟨Reachable.init ['a'], rfl, scan_spans_monotone _ _ _ _ (Reachable.init ['a']) rfl⟩

/-- C5: on every reachable scanner state, `TokenLiteral` leaves the token
span `tokPos`/`tokEnd` unchanged, and in fact changes nothing but the
internal text accumulator `tokBuf`. -/
theorem tokenLiteral_preserves_span (s s' : Scanner) (lit : List Nat)
    (hs : Reachable s) (h : TokenLiteral s = some (s', lit)) :
    s'.tokPos = s.tokPos ∧ s'.tokEnd = s.tokEnd ∧ s'.rest = s.rest ∧ s'.ch = s.ch ∧
    s'.pos = s.pos ∧ s'.lastCharLen = s.lastCharLen ∧ s'.srcBytes = s.srcBytes := by
  have htl := tokenLiteral_inv s (reachable_inv hs)
  rw [htl] at h
  simp only [Option.some.injEq, Prod.mk.injEq] at h
  obtain ⟨h1, h2⟩ := h
  rw [← h1]
  exact ⟨rfl, rfl, rfl, rfl, rfl, rfl, rfl⟩

/-- C5 witness: a fresh lexer on input "a". -/
theorem tokenLiteral_preserves_span_witness :
    Reachable (NewLexer ['a']) ∧
    TokenLiteral (NewLexer ['a']) = some (NewLexer ['a'], []) ∧
    ((NewLexer ['a']).tokPos = (NewLexer ['a']).tokPos ∧
      (NewLexer ['a']).tokEnd = (NewLexer ['a']).tokEnd ∧
      (NewLexer ['a']).rest = (NewLexer ['a']).rest ∧
      (NewLexer ['a']).ch = (NewLexer ['a']).ch ∧
      (NewLexer ['a']).pos = (NewLexer ['a']).pos ∧
      (NewLexer ['a']).lastCharLen = (NewLexer ['a']).lastCharLen ∧
      (NewLexer ['a']).srcBytes = (NewLexer ['a']).srcBytes) :=
  ⟨Reachable.init ['a'], rfl, tokenLiteral_preserves_span _ _ _ (Reachable.init ['a']) rfl⟩

/-- C6: after a `Scan` call, two successive `TokenLiteral` calls return the
identical string, equal to the literal that `Scan` itself returned (the
text of the fixed span captured at scan time). -/
theorem tokenLiteral_idempotent (s s1 s2 s3 : Scanner) (t : Token) (lit l1 l2 : List Nat)
    (hs : Reachable s) (h0 : Scan s = some (s1, t, lit))
    (h1 : TokenLiteral s1 = some (s2, l1)) (h2 : TokenLiteral s2 = some (s3, l2)) :
    l1 = l2 ∧ l1 = lit := by
  have hinv := reachable_inv hs
  obtain ⟨s6, tok, hscan, hinv6, _⟩ := scan_spec s hinv
  rw [hscan] at h0
  simp only [Option.some.injEq, Prod.mk.injEq] at h0
  obtain ⟨e1, e2, e3⟩ := h0
  have hinv1 : Inv s1 := by rw [← e1]; exact hinv6
  have hlit : s1.tokBuf = lit := by rw [← e1]; exact e3
  have htl1 := tokenLiteral_inv s1 hinv1
  rw [htl1] at h1
  simp only [Option.some.injEq, Prod.mk.injEq] at h1
  obtain ⟨f1, f2⟩ := h1
  have htl2 : TokenLiteral s2 = some (s2, s2.tokBuf) := by rw [← f1]; exact htl1
  rw [htl2] at h2
  simp only [Option.some.injEq, Prod.mk.injEq] at h2
  obtain ⟨g1, g2⟩ := h2
  have hbb : s2.tokBuf = s1.tokBuf := by rw [← f1]
  constructor
  · rw [← f2, ← g2, hbb]
  · rw [← f2, hlit]

/-- C6 witness: scanning "a" once, then reading the literal twice. -/
theorem tokenLiteral_idempotent_witness :
    Reachable (NewLexer ['a']) ∧
    Scan (NewLexer ['a']) =
      some (Scanner.mk [] [97] (Char.ofNat 0) 1 (Position.mk 1 0 1) [] 0 0,
        Token.IDENT, []) ∧
    TokenLiteral (Scanner.mk [] [97] (Char.ofNat 0) 1 (Position.mk 1 0 1) [] 0 0) =
      some (Scanner.mk [] [97] (Char.ofNat 0) 1 (Position.mk 1 0 1) [] 0 0, []) ∧
    (([] : List Nat) = [] ∧ ([] : List Nat) = []) :=
  ⟨Reachable.init ['a'], rfl, rfl,
    tokenLiteral_idempotent _ _ _ _ _ _ _ _ (Reachable.init ['a']) rfl rfl rfl⟩

/-- C7 counterexample: the claim says `line` is a 1-based count, but the
scanner never initialises `pos.Line` to 1: on input "a" the cursor stays on
the first line of the input throughout, yet the line counter reads 0, not
the 1 a 1-based count requires. -/
theorem line_not_one_based :
    (NewLexer ['a']).pos.Line = 0 ∧
    ((Scan (NewLexer ['a'])).map fun r => r.1.pos.Line) = some 0 ∧
    (0 : Int) ≠ 1 :=
  ⟨rfl, rfl, by decide⟩

/-- C7 (amended): the line counter starts at 0 (not 1) and increments
exactly once per consumed newline; a consuming `next` advances `offset` by
the character's encoded byte width (so `offset` never decreases), advances
`column` by that width, and resets `column` to 0 immediately after a
newline, so the observable column after a newline is always 0; at end of
input the position is left unchanged; and across a successful `Scan` from a
reachable state the offset is non-decreasing. -/
theorem cursor_position_invariant (input : List Char) (s : Scanner) (c : Char)
    (r : List Char) (h : s.rest = c :: r) :
    (NewLexer input).pos.Line = 0 ∧
    s.pos.Offset ≤ (next s).1.pos.Offset ∧
    (next s).1.pos.Offset = s.pos.Offset + (charWidth c : Int) ∧
    (next s).1.pos.Line = s.pos.Line + (if c = '\n' then 1 else 0) ∧
    (next s).1.pos.Column =
      (if c = '\n' then 0 else s.pos.Column + (charWidth c : Int)) ∧
    (∀ s2 : Scanner, s2.rest = [] → (next s2).1.pos = s2.pos) ∧
    (∀ s3 s4 : Scanner, ∀ t : Token, ∀ l : List Nat,
      Reachable s3 → Scan s3 = some (s4, t, l) → s3.pos.Offset ≤ s4.pos.Offset) := by
  have hline : (next s).1.pos.Line = s.pos.Line + (if c = '\n' then 1 else 0) := by
    rw [next_rest_cons h]
    by_cases hc : c = '\n' <;> simp [hc]
  have hcol : (next s).1.pos.Column =
      (if c = '\n' then 0 else s.pos.Column + (charWidth c : Int)) := by
    rw [next_rest_cons h]
    by_cases hc : c = '\n' <;> simp [hc]
  refine ⟨rfl, next_offset_mono s, next_pos_offset_cons h, hline, hcol, ?_, ?_⟩
  · intro s2 h2
    rw [next_rest_nil h2]
  · intro s3 s4 t l hr3 hsc
    obtain ⟨s6, tok, hscan, hinv6, hsrc, hte, hpo, hlc, hoff, _⟩ :=
      scan_spec s3 (reachable_inv hr3)
    rw [hscan] at hsc
    simp only [Option.some.injEq, Prod.mk.injEq] at hsc
    obtain ⟨e1, e2, e3⟩ := hsc
    rw [← e1]
    exact hoff

/-- C7 witness: consuming the newline of input "\n", plus the end-of-input
case on the empty input and a full `Scan` of "\n". -/
theorem cursor_position_invariant_witness :
    (NewLexer ['\n']).rest = '\n' :: [] ∧
    ((NewLexer ['\n']).pos.Line = 0 ∧
      (NewLexer ['\n']).pos.Offset ≤ (next (NewLexer ['\n'])).1.pos.Offset ∧
      (next (NewLexer ['\n'])).1.pos.Offset =
        (NewLexer ['\n']).pos.Offset + (charWidth '\n' : Int) ∧
      (next (NewLexer ['\n'])).1.pos.Line =
        (NewLexer ['\n']).pos.Line + (if '\n' = '\n' then 1 else 0) ∧
      (next (NewLexer ['\n'])).1.pos.Column =
        (if '\n' = '\n' then 0
         else (NewLexer ['\n']).pos.Column + (charWidth '\n' : Int))) ∧
    (next (NewLexer [])).1.pos = (NewLexer []).pos ∧
    Scan (NewLexer ['\n']) =
      some (Scanner.mk [] [10] (Char.ofNat 0) 1 (Position.mk 1 1 0) [] 0 0,
        Token.EOF, []) ∧
    (NewLexer ['\n']).pos.Offset ≤
      (Scanner.mk [] [10] (Char.ofNat 0) 1 (Position.mk 1 1 0) [] 0 0).pos.Offset := by
  obtain ⟨p1, p2, p3, p4, p5, p6, p7⟩ :=
    cursor_position_invariant ['\n'] (NewLexer ['\n']) '\n' [] rfl
  exact ⟨rfl, ⟨p1, p2, p3, p4, p5⟩, p6 (NewLexer []) rfl,
    rfl, p7 (NewLexer ['\n']) _ Token.EOF [] (Reachable.init ['\n']) rfl⟩

/-- C8: when the first non-whitespace character of a `Scan` call is not a
letter and not the end-of-input sentinel (in particular when it satisfies
the digit predicate, whose branch is an unimplemented extension point), the
returned tag is the dedicated unclassified tag `ILLEGAL` — distinguishable
from both `EOF` and `IDENT`, never a silent `EOF`. -/
theorem unclassified_not_eof (s s1 : Scanner) (t : Token) (lit : List Nat)
    (h : Scan s = some (s1, t, lit))
    (hl : isLetter (scanCore s).2.1 = false) (he : ¬ (scanCore s).2.1 = eof) :
    t = Token.ILLEGAL ∧ t ≠ Token.EOF ∧ t ≠ Token.IDENT := by
  have hsplit : Scan s = (match TokenLiteral (scanCore s).1 with
      | none => none
      | some (s6, lit') => some (s6, (scanCore s).2.2, lit')) := rfl
  rw [hsplit] at h
  have ht : t = (scanCore s).2.2 := by
    cases htl : TokenLiteral (scanCore s).1 with
    | none =>
      rw [htl] at h
      simp at h
    | some p =>
      obtain ⟨ps, pl⟩ := p
      rw [htl] at h
      simp only [Option.some.injEq, Prod.mk.injEq] at h
      exact h.2.1.symm
  rw [scanCore_token, if_neg he, hl] at ht
  simp only [Bool.false_eq_true, if_false] at ht
  exact ⟨ht, by rw [ht]; decide, by rw [ht]; decide⟩

/-- C8 witness: the digit input "5". -/
theorem unclassified_not_eof_witness :
    Scan (NewLexer ['5']) =
      some (Scanner.mk [] [53] '5' 1 (Position.mk 1 0 1) [] 0 0, Token.ILLEGAL, []) ∧
    isLetter (scanCore (NewLexer ['5'])).2.1 = false ∧
    ¬ (scanCore (NewLexer ['5'])).2.1 = eof ∧
    (Token.ILLEGAL = Token.ILLEGAL ∧ Token.ILLEGAL ≠ Token.EOF ∧
      Token.ILLEGAL ≠ Token.IDENT) :=
  ⟨rfl, rfl, by decide,
    unclassified_not_eof (NewLexer ['5'])
      (Scanner.mk [] [53] '5' 1 (Position.mk 1 0 1) [] 0 0) Token.ILLEGAL []
      rfl rfl (by decide)⟩

/-- C9: over the byte-level model, which represents every input byte
sequence (invalid UTF-8 encodings are decoded by `ReadRune` as U+FFFD
consuming one byte): from every state reachable by any sequence of `Scan`
and `TokenLiteral` calls, both operations return a value — the modelled
slice panic is never hit — because the slice indices always satisfy
`0 ≤ tokPos ≤ tokEnd ≤ len(srcBytes)`. -/
theorem scanner_total_and_in_bounds_bytes (s : ScannerB) (hs : ReachableB s) :
    (ScanB s).isSome = true ∧ (TokenLiteralB s).isSome = true ∧
    0 ≤ s.tokPos ∧ s.tokPos ≤ s.tokEnd ∧ s.tokEnd ≤ (s.srcBytes.length : Int) := by
  have hinv := reachableB_inv hs
  obtain ⟨s6, tok, hscan, _⟩ := scanB_spec s hinv
  have htl := tokenLiteralB_inv s hinv
  obtain ⟨hc, he, hl⟩ := hinv
  refine ⟨by rw [hscan]; rfl, by rw [htl]; rfl, ?_, le_of_eq he, ?_⟩
  · rw [he, hl]
    exact cinvB_lastStart_nonneg hc
  · rw [hl]
    exact le_trans (cinvB_lastStart_le_offset hc) (cinvB_offset_le_len hc)

/-- C9 witness: a lexer over the byte sequence `[0xFF, 0x61]`, which is
not valid UTF-8 (its first byte is an invalid UTF-8 first byte). -/
theorem scanner_total_and_in_bounds_bytes_witness :
    ReachableB (NewLexerB [255, 97]) ∧
    ((ScanB (NewLexerB [255, 97])).isSome = true ∧
      (TokenLiteralB (NewLexerB [255, 97])).isSome = true ∧
      0 ≤ (NewLexerB [255, 97]).tokPos ∧
      (NewLexerB [255, 97]).tokPos ≤ (NewLexerB [255, 97]).tokEnd ∧
      (NewLexerB [255, 97]).tokEnd ≤ ((NewLexerB [255, 97]).srcBytes.length : Int)) :=
  ⟨ReachableB.init [255, 97],
    scanner_total_and_in_bounds_bytes _ (ReachableB.init [255, 97])⟩

/-- C10: when no bytes remain, `next` overwrites `ch` with the sentinel and
changes nothing else — `pos` is untouched and `lastCharLen` keeps the width
of the last successfully decoded character instead of being reset to 0;
repeated `next` calls past end of input leave the state fixed; and a `Scan`
from such a state computes both `tokPos` and `tokEnd` as
`pos.Offset - lastCharLen`, subtracting that stale width. -/
theorem next_at_eof_stale_width (s : Scanner) (h : s.rest = []) :
    next s = ({ s with ch := Char.ofNat 0 }, Char.ofNat 0) ∧
    (next s).1.pos = s.pos ∧
    (next s).1.lastCharLen = s.lastCharLen ∧
    (next (next s).1).1 = (next s).1 ∧
    (scanCore s).1.tokPos = s.pos.Offset - s.lastCharLen ∧
    (scanCore s).1.tokEnd = s.pos.Offset - s.lastCharLen := by
  have hn := next_rest_nil h
  have hr2 : (next s).1.rest = [] := by rw [hn]; exact h
  have hn2 := next_rest_nil hr2
  have hskip : skipWhitespace (next s).1 (next s).2 = ((next s).1, Char.ofNat 0) := by
    have hc2 : (next s).2 = Char.ofNat 0 := by rw [hn]
    rw [skipWhitespace_eq, hc2, if_neg (by simp [isWhitespace_null])]
  have hcore : scanCore s = scanAfterSkip (next s).1 (Char.ofNat 0) := by
    show scanAfterSkip (skipWhitespace (next s).1 (next s).2).1
        (skipWhitespace (next s).1 (next s).2).2 = _
    rw [hskip]
  have hsas := scanAfterSkip_not_letter (next s).1 (Char.ofNat 0) isLetter_null
  refine ⟨hn, by rw [hn], by rw [hn], ?_, ?_, ?_⟩
  · rw [hn2, hn]
  · rw [hcore, hsas]
    show (next s).1.pos.Offset - (next s).1.lastCharLen = s.pos.Offset - s.lastCharLen
    rw [hn]
  · rw [hcore, hsas]
    show (next s).1.pos.Offset - (next s).1.lastCharLen = s.pos.Offset - s.lastCharLen
    rw [hn]

/-- C10 witness: the state reached after scanning the one-letter input "a",
whose `lastCharLen` still holds the width 1 of the letter. -/
theorem next_at_eof_stale_width_witness :
    (Scanner.mk [] [97] (Char.ofNat 0) 1 (Position.mk 1 0 1) [] 0 0).rest = [] ∧
    (next (Scanner.mk [] [97] (Char.ofNat 0) 1 (Position.mk 1 0 1) [] 0 0) =
        (Scanner.mk [] [97] (Char.ofNat 0) 1 (Position.mk 1 0 1) [] 0 0, Char.ofNat 0) ∧
      (next (Scanner.mk [] [97] (Char.ofNat 0) 1 (Position.mk 1 0 1) [] 0 0)).1.pos =
        (Scanner.mk [] [97] (Char.ofNat 0) 1 (Position.mk 1 0 1) [] 0 0).pos ∧
      (next (Scanner.mk [] [97] (Char.ofNat 0) 1 (Position.mk 1 0 1) [] 0 0)).1.lastCharLen =
        (Scanner.mk [] [97] (Char.ofNat 0) 1 (Position.mk 1 0 1) [] 0 0).lastCharLen ∧
      (next (next (Scanner.mk [] [97] (Char.ofNat 0) 1 (Position.mk 1 0 1) [] 0 0)).1).1 =
        (next (Scanner.mk [] [97] (Char.ofNat 0) 1 (Position.mk 1 0 1) [] 0 0)).1 ∧
      (scanCore (Scanner.mk [] [97] (Char.ofNat 0) 1 (Position.mk 1 0 1) [] 0 0)).1.tokPos =
        (Scanner.mk [] [97] (Char.ofNat 0) 1 (Position.mk 1 0 1) [] 0 0).pos.Offset -
          (Scanner.mk [] [97] (Char.ofNat 0) 1 (Position.mk 1 0 1) [] 0 0).lastCharLen ∧
      (scanCore (Scanner.mk [] [97] (Char.ofNat 0) 1 (Position.mk 1 0 1) [] 0 0)).1.tokEnd =
        (Scanner.mk [] [97] (Char.ofNat 0) 1 (Position.mk 1 0 1) [] 0 0).pos.Offset -
          (Scanner.mk [] [97] (Char.ofNat 0) 1 (Position.mk 1 0 1) [] 0 0).lastCharLen) :=
  ⟨rfl, next_at_eof_stale_width _ rfl⟩

end HCL
